import Mathlib

/-!
The upload and retrieval handlers of reg-cdn (`server.go`, package `main`),
as a shallow embedding.

Go strings are byte sequences, so a string is a list of bytes here.  The
standard-library functions the handlers call (`strings.ReplaceAll`,
`strings.Split`, `filepath.Clean`, `hex.EncodeToString`, the
`http.ResponseWriter`) are embedded from the Go standard library, for the
Unix build (`filepath.Separator = '/'`).
-/

namespace RegCdn

/-! ## Strings -/

abbrev Byte := UInt8

/-- A Go `string`: an immutable sequence of bytes. -/
abbrev GoString := List Byte

/-- The bytes of an ASCII literal. -/
def ascii (s : String) : GoString := s.toList.map (fun c => c.toNat.toUInt8)

def chSpace : Byte := 32
def chDot : Byte := 46
def chSlash : Byte := 47
def chSemi : Byte := 59
def chBackslash : Byte := 92
def chUnderscore : Byte := 95

/-- The function `strings.ReplaceAll(s, old, new)` where `old` and `new` are one byte
long, the only way `server.go` calls it: every byte equal to `old` becomes
`new` (matches of a one-byte pattern cannot overlap). -/
def ReplaceAll (s : GoString) (old new : Byte) : GoString :=
  s.map (fun b => if b = old then new else b)

/-- The function `strings.Split(s, sep)` for a one-byte separator (`genSplit` with
`sepSave = 0`, `n = -1`): the pieces of `s` between consecutive occurrences
of `sep`; `Count(s, sep) + 1` pieces, so `Split("", sep)` is `[""]`. -/
def Split (sep : Byte) : GoString → List GoString
  | [] => [[]]
  | b :: t =>
    if b = sep then [] :: Split sep t
    else
      match Split sep t with
      | [] => [[b]]
      | e :: es => (b :: e) :: es

/-! ## `path/filepath.Clean` (Unix) -/

/-- The function `os.IsPathSeparator` on Unix. -/
def IsPathSeparator (c : Byte) : Bool := c == chSlash

/-- The backtracking of the `..` case of `Clean`:
`for out.w > dotdot && !os.IsPathSeparator(out.index(out.w)) { out.w-- }`,
run on the write index `w`; returns the final `out.w`. -/
def backtrackIndex (out : GoString) (dotdot : Nat) : Nat → Nat
  | 0 => 0
  | w + 1 =>
    if w + 1 > dotdot ∧ !(IsPathSeparator (out.getD (w + 1) 0)) then backtrackIndex out dotdot w
    else w + 1

/-- The `..` case when `out.w > dotdot`: `out.w--` and then the loop above.
The buffer is the list of the bytes written so far (`out.w = out.length`). -/
def backtrack (out : GoString) (dotdot : Nat) : GoString :=
  out.take (backtrackIndex out dotdot (out.length - 1))

/-- The main loop `for r < n { switch ... }` of `filepath.Clean`.  `rest` is
`path[r:]`, `out` the bytes written so far, `dotdot` the index where `..`
must stop.  Every iteration consumes at least one byte of `rest`, so
`rest.length` iterations of fuel are enough. -/
def cleanLoop (rooted : Bool) : Nat → GoString → GoString → Nat → GoString
  | 0, _, out, _ => out
  | _ + 1, [], out, _ => out
  | fuel + 1, c :: t, out, dotdot =>
    if IsPathSeparator c then
      -- empty path element
      cleanLoop rooted fuel t out dotdot
    else if c = chDot ∧ (t = [] ∨ (t.head?.map IsPathSeparator) = some true) then
      -- . element
      cleanLoop rooted fuel t out dotdot
    else if c = chDot ∧ t.head? = some chDot ∧
        (t.tail = [] ∨ (t.tail.head?.map IsPathSeparator) = some true) then
      -- .. element: remove to last separator
      if out.length > dotdot then
        -- can backtrack
        cleanLoop rooted fuel t.tail (backtrack out dotdot) dotdot
      else if !rooted then
        -- cannot backtrack, but not rooted, so append .. element.
        let out1 := if out.length > 0 then out ++ [chSlash] else out
        let out2 := out1 ++ [chDot, chDot]
        cleanLoop rooted fuel t.tail out2 out2.length
      else
        cleanLoop rooted fuel t.tail out dotdot
    else
      -- real path element; add slash if needed
      let out1 :=
        if (rooted && out.length != 1) || (!rooted && out.length != 0) then out ++ [chSlash]
        else out
      -- copy element
      let elem := (c :: t).takeWhile (fun b => !(IsPathSeparator b))
      let rest := (c :: t).dropWhile (fun b => !(IsPathSeparator b))
      cleanLoop rooted fuel rest (out1 ++ elem) dotdot

/-- The function `filepath.Clean(path)` on Unix (no volume name, `FromSlash` is the
identity). -/
def Clean (path : GoString) : GoString :=
  if path = [] then [chDot]
  else
    let rooted := IsPathSeparator (path.headD 0)
    let out := cleanLoop rooted path.length (if rooted then path.tail else path)
      (if rooted then [chSlash] else []) (if rooted then 1 else 0)
    -- Turn empty string into "."
    if out.length = 0 then [chDot] else out

/-! ## `encoding/hex` and `crypto/sha256` -/

/-- The table `hextable` of `encoding/hex`. -/
def hextable : GoString := ascii "0123456789abcdef"

/-- The function `hex.EncodeToString(src)`: for each byte `v`, `hextable[v>>4]` and
`hextable[v&0x0f]`. -/
def EncodeToString (src : List Byte) : GoString :=
  src.flatMap (fun v => [hextable.getD (v.toNat / 16) 0, hextable.getD (v.toNat % 16) 0])

/-- A byte that is one of `0`..`9`, `a`..`f`. -/
def isLowerHex (b : Byte) : Bool :=
  (48 ≤ b.toNat && b.toNat ≤ 57) || (97 ≤ b.toNat && b.toNat ≤ 102)

/-! ## Access control -/

/-- The loop `for _, k := range allowedKeys { if k == key { return true } }
return false` of `checkApiKey`. -/
def checkApiKeyLoop (key : GoString) : List GoString → Bool
  | [] => false
  | k :: ks => if k = key then true else checkApiKeyLoop key ks

/-- The function `checkApiKey(key)`; `API_KEYS` is the value of
`os.Getenv("API_KEYS")` at the call (`""` when the variable is unset). -/
def checkApiKey (API_KEYS : GoString) (key : GoString) : Bool :=
  let allowedKeys := Split chSemi API_KEYS
  checkApiKeyLoop key allowedKeys

/-! ## `net/http`: response writer and request -/

/-- An `http.Header`, as the list of its (key, value) entries. -/
abbrev Header := List (GoString × GoString)

/-- The method `Header.Set(key, value)`: replaces any existing values of `key`. -/
def Header.Set (h : Header) (key value : GoString) : Header :=
  h.filter (fun kv => kv.1 ≠ key) ++ [(key, value)]

/-- The method `Header.Add(key, value)`: appends to any existing values of `key`. -/
def Header.Add (h : Header) (key value : GoString) : Header :=
  h ++ [(key, value)]

/-- The method `Header.Get(key)`: the first value of `key`. -/
def Header.Get (h : Header) (key : GoString) : Option GoString :=
  (h.find? (fun kv => kv.1 = key)).map (fun kv => kv.2)

/-- The state of an `http.ResponseWriter` of `net/http`.  `header` is the
map returned by `w.Header()`.  `WriteHeader` sends the status line together
with the header map as it is at that moment (`sentHeader`); "changing the
header map after a call to WriteHeader (or Write) has no effect".  `body` is
what `Write` has sent. -/
structure ResponseWriter where
  header : Header
  wroteHeader : Bool
  status : Nat
  sentHeader : Header
  body : List Byte

/-- The response writer a handler is started with. -/
def ResponseWriter.fresh : ResponseWriter :=
  { header := [], wroteHeader := false, status := 0, sentHeader := [], body := [] }

/-- The call `w.Header().Set(key, value)`. -/
def ResponseWriter.SetHeader (w : ResponseWriter) (key value : GoString) : ResponseWriter :=
  { w with header := w.header.Set key value }

/-- The call `w.Header().Add(key, value)`. -/
def ResponseWriter.AddHeader (w : ResponseWriter) (key value : GoString) : ResponseWriter :=
  { w with header := w.header.Add key value }

/-- The call `w.WriteHeader(statusCode)`; a second call is superfluous and
ignored. -/
def ResponseWriter.WriteHeader (w : ResponseWriter) (statusCode : Nat) : ResponseWriter :=
  if w.wroteHeader then w
  else { w with wroteHeader := true, status := statusCode, sentHeader := w.header }

/-- The call `w.Write(b)`: "if WriteHeader has not yet been called, Write
calls WriteHeader(http.StatusOK) before writing the data". -/
def ResponseWriter.Write (w : ResponseWriter) (b : List Byte) : ResponseWriter :=
  let w1 := if w.wroteHeader then w else w.WriteHeader 200
  { w1 with body := w1.body ++ b }

def StatusOK : Nat := 200
def StatusBadRequest : Nat := 400
def StatusUnauthorized : Nat := 401
def StatusNotFound : Nat := 404
def StatusMethodNotAllowed : Nat := 405
def StatusInternalServerError : Nat := 500

/-- What the handlers read of an `*http.Request`.  `Vars` is `mux.Vars(r)`;
`Form` holds the form fields after `r.ParseMultipartForm`; `File` is the
result of `r.FormFile("file")`: the part's `handler.Filename` and its bytes,
or `none` when `err != nil`. -/
structure Request where
  Method : GoString
  Vars : List (GoString × GoString)
  Form : List (GoString × GoString)
  File : Option (GoString × List Byte)

/-- The call `r.FormValue(key)`: the first value of `key`, `""` when there
is none. -/
def Request.FormValue (r : Request) (key : GoString) : GoString :=
  ((r.Form.find? (fun kv => kv.1 = key)).map (fun kv => kv.2)).getD []

/-- The lookup `v[key]` in `v := mux.Vars(r)`. -/
def Request.Var (r : Request) (key : GoString) : Option GoString :=
  (r.Vars.find? (fun kv => kv.1 = key)).map (fun kv => kv.2)

/-! ## The store -/

/-- The file system the server runs on.  `files` gives the contents of the
regular files by canonical path name; the system calls resolve the path name
they are given lexically (`Clean`; the store holds no symbolic links).
`createErr` tells where `os.Create` fails, `readFault` and `writeFault`
whether reading the uploaded part or writing a created file fails, and after
how many bytes. -/
structure World where
  files : GoString → Option (List Byte)
  createErr : GoString → Bool
  readFault : Option Nat
  writeFault : Option Nat

/-- The call `os.ReadFile(name)`; `none` when `err != nil`. -/
def World.ReadFile (world : World) (name : GoString) : Option (List Byte) :=
  world.files (Clean name)

/-- The call `os.Create(name)`: creates or truncates the named file; `none` when
`err != nil`. -/
def World.Create (world : World) (name : GoString) : Option World :=
  if world.createErr (Clean name) then none
  else some { world with files := Function.update world.files (Clean name) (some []) }

/-- The bytes that writing `data` to the file created at `name` leaves in
it. -/
def World.WriteFile (world : World) (name : GoString) (data : List Byte) : World :=
  { world with files := Function.update world.files (Clean name) (some data) }

/-- The call `io.Copy(dst, src)`: the bytes transferred and whether `err != nil`. -/
def ioCopy (fault : Option Nat) (src : List Byte) : List Byte × Bool :=
  match fault with
  | none => (src, false)
  | some k => (src.take k, true)

/-! ## The handlers -/

/-- What `server.go` takes from its surroundings: the value of
`os.Getenv("API_KEYS")`, the embedded pages `internal/upload.html` and
`internal/uploadReload.html`, `sha256.Sum256` (a `[32]byte`), and
`fmt.Sprintf` with one operand. -/
structure Env where
  API_KEYS : GoString
  UploadWebPage : List Byte
  UploadReloadWebPage : List Byte
  Sum256 : List Byte → List Byte
  Sum256_size : ∀ data, (Sum256 data).length = 32
  Sprintf : GoString → GoString → GoString

/-- The three CORS headers both handlers start with. -/
def setCors (w : ResponseWriter) : ResponseWriter :=
  let w := w.SetHeader (ascii "Access-Control-Allow-Origin") (ascii "*")
  let w := w.SetHeader (ascii "Access-Control-Allow-Methods") (ascii "GET, POST, OPTIONS")
  w.SetHeader (ascii "Access-Control-Allow-Headers") (ascii "Content-Type, Authorization")

/-- The path `filepath.Clean(ROOTDIR + "/files/versioned/" + fileToOpen)`
that `handleVersioned` reads. -/
def versionedPath (ROOTDIR fileToOpen : GoString) : GoString :=
  Clean (ROOTDIR ++ ascii "/files/versioned/" ++ fileToOpen)

/-- The handler `handleVersioned(ROOTDIR)`, run on a fresh response
writer. -/
def handleVersioned (ROOTDIR : GoString) (world : World) (r : Request) : ResponseWriter :=
  let w := setCors ResponseWriter.fresh
  if r.Method = ascii "OPTIONS" then w.WriteHeader StatusOK
  else
    match r.Var (ascii "hash") with
    | none => w.WriteHeader StatusBadRequest
    | some fileToOpen =>
      match r.Var (ascii "fileName") with
      | none => w.WriteHeader StatusBadRequest
      | some fileName =>
        let f := versionedPath ROOTDIR fileToOpen
        match world.ReadFile f with
        | none => w.WriteHeader StatusNotFound
        | some b =>
          let w := w.WriteHeader StatusOK
          let w := w.SetHeader (ascii "Content-Type") (ascii "application/octet-stream")
          let w := w.SetHeader (ascii "Content-Disposition") (ascii "attachment; filename=" ++ fileName)
          let w := w.SetHeader (ascii "Content-Length") (ascii (toString b.length))
          let w := w.SetHeader (ascii "Content-Transfer-Encoding") (ascii "binary")
          w.Write b

/-! ### The route to `handleVersioned`

`main` registers the handler on `mux.NewRouter()` (no `SkipClean`, no
`UseEncodedPath`) under the template `/files/versioned/{hash}/{fileName}`,
for the methods GET and OPTIONS.  What follows is `Router.ServeHTTP` of
`gorilla/mux` for this route; the URL path is `req.URL.Path`, in which
percent-escapes are already decoded. -/

def StatusMovedPermanently : Nat := 301

/-- The function `cleanPath` of `gorilla/mux`: `path.Clean` of the path made
rooted, with the trailing slash put back. -/
def cleanPath (p : GoString) : GoString :=
  if p = [] then [chSlash]
  else
    let p := if p.headD 0 ≠ chSlash then chSlash :: p else p
    let np := Clean p
    if p.getLast? = some chSlash ∧ np ≠ [chSlash] then np ++ [chSlash] else np

/-- The match of a URL path against the route template
`/files/versioned/{hash}/{fileName}`, that is against the regular expression
`^/files/versioned/([^/]+)/([^/]+)$`: the values of `hash` and `fileName`. -/
def matchVersionedRoute (urlPath : GoString) : Option (GoString × GoString) :=
  match Split chSlash urlPath with
  | [e0, e1, e2, hash, fileName] =>
    if e0 = [] ∧ e1 = ascii "files" ∧ e2 = ascii "versioned" ∧ hash ≠ [] ∧ fileName ≠ [] then
      some (hash, fileName)
    else none
  | _ => none

/-- The route variables with which the router calls `handleVersioned` for a
URL path: none when the path is not its own cleaning (the router answers 301)
or does not match the template. -/
def routeVars (urlPath : GoString) : Option (GoString × GoString) :=
  if cleanPath urlPath ≠ urlPath then none else matchVersionedRoute urlPath

/-- The request the router hands to `handleVersioned`, with `mux.Vars` set. -/
def routedRequest (method hash fileName : GoString) : Request :=
  { Method := method
    Vars := [(ascii "hash", hash), (ascii "fileName", fileName)]
    Form := []
    File := none }

/-- The serving of a request whose URL path is `urlPath` by the router, as
far as the versioned route goes: 301 to the cleaned path when the path is not
its own cleaning, 404 when the template does not match, 405 for another
method than GET and OPTIONS, and `handleVersioned` otherwise. -/
def routeVersioned (ROOTDIR : GoString) (world : World) (method urlPath : GoString) :
    ResponseWriter :=
  if cleanPath urlPath ≠ urlPath then
    (ResponseWriter.fresh.SetHeader (ascii "Location") (cleanPath urlPath)).WriteHeader
      StatusMovedPermanently
  else
    match matchVersionedRoute urlPath with
    | none => ResponseWriter.fresh.WriteHeader StatusNotFound
    | some (hash, fileName) =>
      if method = ascii "GET" ∨ method = ascii "OPTIONS" then
        handleVersioned ROOTDIR world (routedRequest method hash fileName)
      else ResponseWriter.fresh.WriteHeader StatusMethodNotAllowed

/-- The sanitizing of the display name in `handleUpload`: the three
`strings.ReplaceAll` and `filepath.Clean`. -/
def sanitize (fileName : GoString) : GoString :=
  let ffName := fileName
  let ffName := ReplaceAll ffName chSpace chUnderscore
  let ffName := ReplaceAll ffName chSlash chUnderscore
  let ffName := ReplaceAll ffName chBackslash chUnderscore
  Clean ffName

/-- The name `ROOTDIR + "/files/unversioned/" + ffName` that `handleUpload`
creates for an unversioned upload. -/
def unversionedPath (ROOTDIR ffName : GoString) : GoString :=
  ROOTDIR ++ ascii "/files/unversioned/" ++ ffName

/-- The link `"/files/versioned/" + hashString + "/" + ffName` of a versioned
upload. -/
def versionedLink (hashString ffName : GoString) : GoString :=
  ascii "/files/versioned/" ++ hashString ++ ascii "/" ++ ffName

/-- The anchor `"<a href='"+finalLink+"'>"+ffName+"</a>"`. -/
def anchor (finalLink ffName : GoString) : GoString :=
  ascii "<a href='" ++ finalLink ++ ascii "'>" ++ ffName ++ ascii "</a>"

/-- The end of `handleUpload`: the confirmation page with status 200. -/
def uploadDone (env : Env) (w : ResponseWriter) (finalLink ffName : GoString) : ResponseWriter :=
  let w := w.SetHeader (ascii "Content-Type") (ascii "text/html")
  let w := w.WriteHeader StatusOK
  w.Write (env.Sprintf env.UploadReloadWebPage (anchor finalLink ffName))

/-- The handler `handleUpload(ROOTDIR)`, run on a fresh response writer:
the store after the request and the response. -/
def handleUpload (env : Env) (ROOTDIR : GoString) (world : World) (r : Request) :
    World × ResponseWriter :=
  let w := setCors ResponseWriter.fresh
  if r.Method = ascii "OPTIONS" then (world, w.WriteHeader StatusOK)
  else if r.Method = ascii "GET" then
    let w := w.AddHeader (ascii "Content-Type") (ascii "text/html")
    let w := w.WriteHeader StatusOK
    (world, w.Write env.UploadWebPage)
  else if r.Method ≠ ascii "POST" then (world, w.WriteHeader StatusMethodNotAllowed)
  else
    match r.File with
    | none => (world, w.WriteHeader StatusBadRequest)
    | some (handlerFilename, file) =>
      let versioned := r.FormValue (ascii "versioned")
      let versioned := if versioned = [] then ascii "off" else versioned
      let fileName := r.FormValue (ascii "fileName")
      let fileName := if fileName = [] then handlerFilename else fileName
      let apikey := r.FormValue (ascii "apikey")
      if apikey = [] then (world, w.WriteHeader StatusBadRequest)
      else if !(checkApiKey env.API_KEYS apikey) then (world, w.WriteHeader StatusUnauthorized)
      else
        let ffName := sanitize fileName
        let finalLink := ascii "/files/latest/" ++ ffName
        if versioned = ascii "on" then
          match ioCopy world.readFault file with
          | (_, true) => (world, w.WriteHeader StatusInternalServerError)
          | (buf, false) =>
            let hashString := EncodeToString (env.Sum256 buf)
            let name := ROOTDIR ++ ascii "/files/versioned/" ++ hashString
            let finalLink := versionedLink hashString ffName
            let ffName := hashString
            match world.Create name with
            | none => (world, w.WriteHeader StatusInternalServerError)
            | some world1 =>
              match ioCopy world.writeFault buf with
              | (written, true) =>
                (world1.WriteFile name written, w.WriteHeader StatusInternalServerError)
              | (written, false) =>
                (world1.WriteFile name written, uploadDone env w finalLink ffName)
        else
          let name := unversionedPath ROOTDIR ffName
          match world.Create name with
          | none => (world, w.WriteHeader StatusInternalServerError)
          | some world1 =>
            -- io.Copy(f, file) reads the part and writes the file
            let (data, readErr) := ioCopy world.readFault file
            let (written, writeErr) := ioCopy world.writeFault data
            if readErr || writeErr then
              (world1.WriteFile name written, w.WriteHeader StatusInternalServerError)
            else
              (world1.WriteFile name written, uploadDone env w finalLink ffName)

/-! ## Definitions used to state the properties -/

/-- The function `strings.Join(elems, sep)` for a one-byte separator. -/
def Join (sep : Byte) : List GoString → GoString
  | [] => []
  | [e] => e
  | e :: e2 :: es => e ++ sep :: Join sep (e2 :: es)

/-- The name after the three `strings.ReplaceAll` of `handleUpload`. -/
def replaced (fileName : GoString) : GoString :=
  ReplaceAll (ReplaceAll (ReplaceAll fileName chSpace chUnderscore) chSlash chUnderscore)
    chBackslash chUnderscore

/-- The element `..`. -/
def dotdotElem : GoString := [chDot, chDot]

/-- The leading separator of the output of `Clean` on a rooted path. -/
def rootPrefix (rooted : Bool) : GoString := if rooted then [chSlash] else []

/-- The step "add slash if needed" of `Clean`. -/
def addSep (rooted : Bool) (out : GoString) : GoString :=
  if (rooted && out.length != 1) || (!rooted && out.length != 0) then out ++ [chSlash] else out

/-- The buffer of `Clean` that holds the given path elements, last one
first. -/
def render (rooted : Bool) : List GoString → GoString
  | [] => rootPrefix rooted
  | e :: st => addSep rooted (render rooted st) ++ e

/-- What one path element does to the elements `Clean` keeps (last one
first): an empty element and `.` are dropped, `..` removes the last kept
element unless there is none or it is `..` itself, any other element is
kept. -/
def stepElem (rooted : Bool) (st : List GoString) (e : GoString) : List GoString :=
  if e = [] ∨ e = [chDot] then st
  else if e = dotdotElem then
    match st with
    | [] => if rooted then [] else [dotdotElem]
    | top :: below => if top = dotdotElem then dotdotElem :: top :: below else below
  else e :: st

/-- A path element that `Clean` copies. -/
def Normal (e : GoString) : Prop :=
  e ≠ [] ∧ chSlash ∉ e ∧ e ≠ [chDot] ∧ e ≠ dotdotElem

/-- Where the rest of a path begins after an element: at the end or at a
separator. -/
def AtBoundary (t : GoString) : Prop := t = [] ∨ ∃ r, t = chSlash :: r

/-- The state of the loop of `Clean` between two elements: `ns` are the
kept elements other than `..` (last one first), `k` the number of leading
`..` elements. -/
structure CleanInv (rooted : Bool) (ns : List GoString) (k : Nat) (out : GoString)
    (dotdot : Nat) : Prop where
  normal : ∀ e ∈ ns, Normal e
  root_k : rooted = true → k = 0
  out_eq : out = render rooted (ns ++ List.replicate k dotdotElem)
  dotdot_eq : dotdot = (render rooted (List.replicate k dotdotElem)).length

/-- Whether `Clean` treats the path as rooted: `os.IsPathSeparator(path[0])`. -/
def isRooted (path : GoString) : Bool := IsPathSeparator (path.headD 0)

/-- The path elements `Clean` keeps of a path, last one first. -/
def cleanElems (path : GoString) : List GoString :=
  List.foldl (stepElem (isRooted path)) [] (Split chSlash path)

/-- The elements `Clean` can keep: elements other than `..` on top of
leading `..` elements, which a rooted path has none of. -/
def Canon (rooted : Bool) (st : List GoString) : Prop :=
  ∃ (ns : List GoString) (k : Nat), st = ns ++ List.replicate k dotdotElem ∧
    (∀ e ∈ ns, Normal e) ∧ (rooted = true → k = 0)

/-- The canonical path `p` is the directory `base` or lies below it. -/
def liesWithin (base p : GoString) : Bool :=
  p == base || (base ++ [chSlash]).isPrefixOf p

/-- The sanitized name in the words of the specification: every space, `/`
and `\` replaced by `_`, and the result path-cleaned, which for a name
without separator is `.` for the empty name and for `.`, and the name itself
otherwise. -/
def specSanitize (F : GoString) : GoString :=
  let m := F.map (fun b => if b = 32 ∨ b = 47 ∨ b = 92 then 95 else b)
  if m = [] ∨ m = [46] then [46] else m

/-- The value of a lowercase hexadecimal digit: `0`..`9` are 0 to 9, `a`..`f`
are 10 to 15; no other byte is a digit. -/
def hexDigitValue (b : Byte) : Option Nat :=
  if 48 ≤ b.toNat ∧ b.toNat ≤ 57 then some (b.toNat - 48)
  else if 97 ≤ b.toNat ∧ b.toNat ≤ 102 then some (b.toNat - 87)
  else none

/-- The bytes a lowercase hexadecimal string denotes, two digits a byte, the
high digit first; none when the string is not one. -/
def hexDecode : GoString → Option (List Nat)
  | [] => some []
  | [_] => none
  | hi :: lo :: rest =>
    match hexDigitValue hi, hexDigitValue lo, hexDecode rest with
    | some a, some b, some bs => some ((16 * a + b) :: bs)
    | _, _, _ => none

/-! ## A concrete server, for the instances -/

/-- A stand-in for `sha256.Sum256` with the same result type: the first 32
bytes of the data, zero-padded. -/
def demoSum256 (data : List Byte) : List Byte := (data ++ List.replicate 32 0).take 32

/-- An environment with the allow-list `k1;k2`. -/
def demoEnv : Env :=
  { API_KEYS := ascii "k1;k2"
    UploadWebPage := ascii "<form></form>"
    UploadReloadWebPage := ascii "<p>%s</p>"
    Sum256 := demoSum256
    Sum256_size := by
      intro data
      simp [demoSum256]
    Sprintf := fun format a => format ++ a }

/-- The root directory of the instances. -/
def demoRoot : GoString := ascii "/srv"

/-- An empty store on which no operation fails. -/
def emptyWorld : World :=
  { files := fun _ => none, createErr := fun _ => false, readFault := none, writeFault := none }

/-- A store whose only file is `/srv/files/versioned/abc`. -/
def oneFileWorld : World :=
  { files := fun p => if p = ascii "/srv/files/versioned/abc" then some [1, 2, 3] else none
    createErr := fun _ => false, readFault := none, writeFault := none }

/-- A versioned upload of the bytes `1 2 3` with the given form fields
`fileName` and `apikey`. -/
def demoUpload (fileName apikey : GoString) : Request :=
  { Method := ascii "POST"
    Vars := []
    Form := [(ascii "versioned", ascii "on"), (ascii "fileName", fileName),
      (ascii "apikey", apikey)]
    File := some (ascii "upload.bin", [1, 2, 3]) }

/-- A retrieval `GET /files/versioned/{hash}/{fileName}`. -/
def demoGet (hash fileName : GoString) : Request :=
  { Method := ascii "GET"
    Vars := [(ascii "hash", hash), (ascii "fileName", fileName)]
    Form := []
    File := none }

/-! ## Splitting and joining -/

theorem Split_ne_nil (sep : Byte) (s : GoString) : Split sep s ≠ [] := by
  induction s with
  | nil => simp [Split]
  | cons b t ih =>
    unfold Split
    split
    · simp
    · split <;> simp

theorem Split_of_not_mem (sep : Byte) (s : GoString) (h : sep ∉ s) : Split sep s = [s] := by
  induction s with
  | nil => simp [Split]
  | cons b t ih =>
    have hb : b ≠ sep := fun e => h (by simp [e])
    have ht : sep ∉ t := fun e => h (by simp [e])
    simp [Split, hb, ih ht]

theorem Split_cons_of_ne (sep b : Byte) (t : GoString) (hb : b ≠ sep) :
    Split sep (b :: t) = (b :: (Split sep t).headD []) :: (Split sep t).tail := by
  rw [Split.eq_2, if_neg hb]
  cases hs : Split sep t with
  | nil => exact absurd hs (Split_ne_nil sep t)
  | cons e es => simp

theorem Split_cons_sep (sep : Byte) (t : GoString) :
    Split sep (sep :: t) = [] :: Split sep t := by
  simp [Split]

theorem Split_append (sep : Byte) (a b : GoString) :
    Split sep (a ++ sep :: b) = Split sep a ++ Split sep b := by
  induction a with
  | nil => simp [Split]
  | cons c t ih =>
    by_cases hc : c = sep
    · subst hc
      simp [Split_cons_sep, ih]
    · rw [List.cons_append, Split_cons_of_ne _ _ _ hc, Split_cons_of_ne _ _ _ hc, ih]
      cases hs : Split sep t with
      | nil => exact absurd hs (Split_ne_nil sep t)
      | cons e es => simp

theorem empty_mem_Split_trailing (sep : Byte) (L : GoString) : [] ∈ Split sep (L ++ [sep]) := by
  rw [Split_append]
  simp [Split]

theorem Join_Split (sep : Byte) (s : GoString) : Join sep (Split sep s) = s := by
  induction s with
  | nil => simp [Split, Join]
  | cons b t ih =>
    unfold Split
    split
    · rename_i hb
      cases hs : Split sep t with
      | nil => exact absurd hs (Split_ne_nil sep t)
      | cons e es => rw [hs] at ih; simp [Join, ih, hb]
    · cases hs : Split sep t with
      | nil => exact absurd hs (Split_ne_nil sep t)
      | cons e es =>
        rw [hs] at ih
        cases es with
        | nil => simpa [Join] using ih
        | cons e2 es => simp only [Join] at ih ⊢; simp [ih]

theorem not_mem_of_mem_Split (sep : Byte) (s e : GoString) (he : e ∈ Split sep s) :
    sep ∉ e := by
  induction s generalizing e with
  | nil => simp [Split] at he; simp [he]
  | cons b t ih =>
    unfold Split at he
    split at he
    · rcases List.mem_cons.1 he with h | h
      · simp [h]
      · exact ih e h
    · rename_i hb
      cases hs : Split sep t with
      | nil => exact absurd hs (Split_ne_nil sep t)
      | cons e1 es =>
        rw [hs] at he ih
        simp only [List.mem_cons] at he
        rcases he with h | h
        · subst h
          have := ih e1 (by simp)
          simp only [List.mem_cons, not_or]
          exact ⟨fun e => hb e.symm, this⟩
        · exact ih e (by simp [h])

theorem Split_Join (sep : Byte) (es : List GoString) (hne : es ≠ [])
    (h : ∀ e ∈ es, sep ∉ e) : Split sep (Join sep es) = es := by
  induction es with
  | nil => exact absurd rfl hne
  | cons e es ih =>
    cases es with
    | nil => simpa [Join] using Split_of_not_mem sep e (h e (by simp))
    | cons e2 es =>
      simp only [Join]
      rw [Split_append, Split_of_not_mem sep e (h e (by simp)), List.singleton_append]
      rw [ih (by simp) (fun x hx => h x (by simp [hx]))]

theorem checkApiKeyLoop_eq_true (key : GoString) (ks : List GoString) :
    checkApiKeyLoop key ks = true ↔ key ∈ ks := by
  induction ks with
  | nil => simp [checkApiKeyLoop]
  | cons k ks ih =>
    by_cases hk : k = key
    · simp [checkApiKeyLoop, hk]
    · have hk2 : ¬ key = k := fun e => hk e.symm
      simp [checkApiKeyLoop, hk, hk2, ih]

/-- Claim C6. `checkApiKey(k)` is true exactly when `k` is one of the pieces
`strings.Split` cuts the allow-list into, and these pieces are the entries of
the allow-list: the `;`-free strings whose `;`-join is the allow-list. -/
theorem checkApiKey_iff_entry (L k : GoString) :
    (checkApiKey L k = true ↔ k ∈ Split chSemi L) ∧
    (k ∈ Split chSemi L ↔
      ∃ es : List GoString, (∀ e ∈ es, chSemi ∉ e) ∧ Join chSemi es = L ∧ k ∈ es) := by
  refine ⟨?_, ?_⟩
  · simp [checkApiKey, checkApiKeyLoop_eq_true]
  · constructor
    · intro hk
      exact ⟨Split chSemi L, fun e he => not_mem_of_mem_Split chSemi L e he,
        Join_Split chSemi L, hk⟩
    · rintro ⟨es, hes, hj, hk⟩
      have hne : es ≠ [] := by
        intro h
        simp [h] at hk
      rw [← hj, Split_Join chSemi es hne hes]
      exact hk

/-! ## The POST path of `handleUpload` up to the authorization -/

theorem post_ne_options : ascii "POST" ≠ ascii "OPTIONS" := by decide
theorem post_ne_get : ascii "POST" ≠ ascii "GET" := by decide

@[simp] theorem WriteHeader_fresh_status (c : Nat) :
    ((setCors ResponseWriter.fresh).WriteHeader c).status = c := rfl

@[simp] theorem WriteHeader_fresh_body (c : Nat) :
    ((setCors ResponseWriter.fresh).WriteHeader c).body = [] := rfl

/-- A POST without the `file` part is answered 400 and leaves the store as
it is. -/
theorem handleUpload_post_no_file (env : Env) (ROOTDIR : GoString) (world : World)
    (r : Request) (hm : r.Method = ascii "POST") (hf : r.File = none) :
    handleUpload env ROOTDIR world r =
      (world, (setCors ResponseWriter.fresh).WriteHeader StatusBadRequest) := by
  simp [handleUpload, hm, hf, post_ne_options, post_ne_get]

/-- A POST with the `file` part and an empty `apikey` is answered 400 and
leaves the store as it is. -/
theorem handleUpload_post_no_key (env : Env) (ROOTDIR : GoString) (world : World)
    (r : Request) (hm : r.Method = ascii "POST") (p : GoString × List Byte)
    (hf : r.File = some p) (hk : r.FormValue (ascii "apikey") = []) :
    handleUpload env ROOTDIR world r =
      (world, (setCors ResponseWriter.fresh).WriteHeader StatusBadRequest) := by
  obtain ⟨n, c⟩ := p
  simp [handleUpload, hm, hf, hk, post_ne_options, post_ne_get]

/-- A POST with the `file` part and an `apikey` that `checkApiKey` refuses is
answered 401 and leaves the store as it is. -/
theorem handleUpload_post_bad_key (env : Env) (ROOTDIR : GoString) (world : World)
    (r : Request) (hm : r.Method = ascii "POST") (p : GoString × List Byte)
    (hf : r.File = some p) (hk : r.FormValue (ascii "apikey") ≠ [])
    (hc : checkApiKey env.API_KEYS (r.FormValue (ascii "apikey")) = false) :
    handleUpload env ROOTDIR world r =
      (world, (setCors ResponseWriter.fresh).WriteHeader StatusUnauthorized) := by
  obtain ⟨n, c⟩ := p
  simp [handleUpload, hm, hf, hk, hc, post_ne_options, post_ne_get]

theorem checkApiKey_eq_false (L k : GoString) (h : k ∉ Split chSemi L) :
    checkApiKey L k = false := by
  cases hc : checkApiKey L k with
  | false => rfl
  | true =>
    exact absurd ((checkApiKeyLoop_eq_true k (Split chSemi L)).1 (by simpa [checkApiKey] using hc)) h

/-- Claim C1. A POST whose `apikey` is absent, empty or not an entry of the
allow-list leaves every file of the store as it was, and is answered 400 or
401. -/
theorem unauthorized_upload_writes_nothing (env : Env) (ROOTDIR : GoString) (world : World)
    (r : Request) (hm : r.Method = ascii "POST")
    (hk : r.FormValue (ascii "apikey") = [] ∨
      r.FormValue (ascii "apikey") ∉ Split chSemi env.API_KEYS) :
    (handleUpload env ROOTDIR world r).1 = world ∧
    ((handleUpload env ROOTDIR world r).2.status = 400 ∨
      (handleUpload env ROOTDIR world r).2.status = 401) := by
  cases hf : r.File with
  | none =>
    rw [handleUpload_post_no_file env ROOTDIR world r hm hf]
    exact ⟨rfl, Or.inl rfl⟩
  | some p =>
    by_cases he : r.FormValue (ascii "apikey") = []
    · rw [handleUpload_post_no_key env ROOTDIR world r hm p hf he]
      exact ⟨rfl, Or.inl rfl⟩
    · have hn : r.FormValue (ascii "apikey") ∉ Split chSemi env.API_KEYS := by
        rcases hk with h | h
        · exact absurd h he
        · exact h
      rw [handleUpload_post_bad_key env ROOTDIR world r hm p hf he
        (checkApiKey_eq_false _ _ hn)]
      exact ⟨rfl, Or.inr rfl⟩

/-- Claim C10. The POST path stops at the first error: no `file` part gives
400 whatever the `apikey`; else an absent or empty `apikey` gives 400; else
an `apikey` outside the allow-list gives 401; each time with an empty
body. -/
theorem upload_post_error_statuses (env : Env) (ROOTDIR : GoString) (world : World)
    (r : Request) (hm : r.Method = ascii "POST") :
    (r.File = none →
      (handleUpload env ROOTDIR world r).2.status = 400 ∧
      (handleUpload env ROOTDIR world r).2.body = []) ∧
    (r.File ≠ none → r.FormValue (ascii "apikey") = [] →
      (handleUpload env ROOTDIR world r).2.status = 400 ∧
      (handleUpload env ROOTDIR world r).2.body = []) ∧
    (r.File ≠ none → r.FormValue (ascii "apikey") ≠ [] →
      r.FormValue (ascii "apikey") ∉ Split chSemi env.API_KEYS →
      (handleUpload env ROOTDIR world r).2.status = 401 ∧
      (handleUpload env ROOTDIR world r).2.body = []) := by
  refine ⟨?_, ?_, ?_⟩
  · intro hf
    rw [handleUpload_post_no_file env ROOTDIR world r hm hf]
    exact ⟨rfl, rfl⟩
  · intro hf hk
    obtain ⟨p, hp⟩ := Option.ne_none_iff_exists'.1 hf
    rw [handleUpload_post_no_key env ROOTDIR world r hm p hp hk]
    exact ⟨rfl, rfl⟩
  · intro hf hk hn
    obtain ⟨p, hp⟩ := Option.ne_none_iff_exists'.1 hf
    rw [handleUpload_post_bad_key env ROOTDIR world r hm p hp hk (checkApiKey_eq_false _ _ hn)]
    exact ⟨rfl, rfl⟩

/-- Claim C5, as it fails: with the allow-list unset, `checkApiKey("")` is
true. -/
theorem checkApiKey_empty_key_unset : checkApiKey [] [] = true := by decide

/-- Claim C5, amended. On the empty key `checkApiKey` is true exactly when
the allow-list has an empty entry, which it has when it is unset or ends in
`;`; the upload handler answers a POST with an absent or empty `apikey` 400
and writes nothing, whatever the allow-list. -/
theorem empty_key_rejected_by_handler (env : Env) (ROOTDIR : GoString) (world : World)
    (r : Request) (hm : r.Method = ascii "POST")
    (hk : r.FormValue (ascii "apikey") = []) :
    (checkApiKey env.API_KEYS [] = true ↔ [] ∈ Split chSemi env.API_KEYS) ∧
    (∀ L : GoString, checkApiKey (L ++ [chSemi]) [] = true) ∧
    (handleUpload env ROOTDIR world r).2.status = 400 ∧
    (handleUpload env ROOTDIR world r).1 = world := by
  refine ⟨by simp [checkApiKey, checkApiKeyLoop_eq_true], ?_, ?_, ?_⟩
  · intro L
    rw [checkApiKey, checkApiKeyLoop_eq_true]
    exact empty_mem_Split_trailing chSemi L
  · cases hf : r.File with
    | none => rw [handleUpload_post_no_file env ROOTDIR world r hm hf]; rfl
    | some p => rw [handleUpload_post_no_key env ROOTDIR world r hm p hf hk]; rfl
  · cases hf : r.File with
    | none => rw [handleUpload_post_no_file env ROOTDIR world r hm hf]
    | some p => rw [handleUpload_post_no_key env ROOTDIR world r hm p hf hk]

/-! ## `Clean` on a name without separator -/

theorem cleanLoop_nil (rooted : Bool) (fuel : Nat) (out : GoString) (dotdot : Nat) :
    cleanLoop rooted fuel [] out dotdot = out := by
  cases fuel <;> rfl

theorem takeWhile_not_sep (s : GoString) (h : chSlash ∉ s) :
    s.takeWhile (fun b => !(IsPathSeparator b)) = s := by
  rw [List.takeWhile_eq_self_iff]
  intro b hb
  have : b ≠ chSlash := fun e => h (e ▸ hb)
  simp [IsPathSeparator, this]

theorem dropWhile_not_sep (s : GoString) (h : chSlash ∉ s) :
    s.dropWhile (fun b => !(IsPathSeparator b)) = [] := by
  rw [List.dropWhile_eq_nil_iff]
  intro b hb
  have : b ≠ chSlash := fun e => h (e ▸ hb)
  simp [IsPathSeparator, this]

/-- On a name without `/`, `Clean` gives `.` for the empty name and for `.`,
and the name itself otherwise (`..` included). -/
theorem Clean_of_no_slash (s : GoString) (h : chSlash ∉ s) :
    Clean s = if s = [] ∨ s = [chDot] then [chDot] else s := by
  cases s with
  | nil => simp [Clean]
  | cons c t =>
    have hc : c ≠ chSlash := fun e => h (by simp [e])
    have ht : chSlash ∉ t := fun e => h (by simp [e])
    have hsep : IsPathSeparator c = false := by simp [IsPathSeparator, hc]
    have hhead : ∀ u : GoString, chSlash ∉ u → (u.head?.map IsPathSeparator) ≠ some true := by
      intro u hu
      cases u with
      | nil => simp
      | cons d v =>
        have hd : d ≠ chSlash := fun e => hu (by simp [e])
        simp [IsPathSeparator, hd]
    by_cases h1 : c = chDot ∧ t = []
    · obtain ⟨rfl, rfl⟩ := h1
      decide
    by_cases h2 : c = chDot ∧ t = [chDot]
    · obtain ⟨rfl, rfl⟩ := h2
      decide
    have hne : ¬ (c :: t = [chDot]) := by
      intro e
      simp only [List.cons.injEq] at e
      exact h1 e
    have hcond1 : ¬ (c = chDot ∧ (t = [] ∨ (t.head?.map IsPathSeparator) = some true)) := by
      rintro ⟨e1, e2 | e2⟩
      · exact h1 ⟨e1, e2⟩
      · exact hhead t ht e2
    have hcond2 : ¬ (c = chDot ∧ t.head? = some chDot ∧
        (t.tail = [] ∨ (t.tail.head?.map IsPathSeparator) = some true)) := by
      rintro ⟨e1, e2, e3 | e3⟩
      · apply h2
        refine ⟨e1, ?_⟩
        cases t with
        | nil => simp at e2
        | cons d v =>
          simp only [List.head?_cons, Option.some.injEq] at e2
          simp only [List.tail_cons] at e3
          rw [e2, e3]
      · have : chSlash ∉ t.tail := fun e => ht (List.mem_of_mem_tail e)
        exact hhead t.tail this e3
    have htw := takeWhile_not_sep (c :: t) h
    have hdw := dropWhile_not_sep (c :: t) h
    simp only [Clean, List.cons_ne_self, reduceCtorEq, ↓reduceIte, List.headD_cons, hsep,
      List.length_cons, cleanLoop, Bool.false_eq_true, hcond1, hcond2, htw, hdw, cleanLoop_nil,
      hne, List.nil_eq, false_or]
    simp

theorem mem_ReplaceAll (s : GoString) (old new b : Byte) (h : b ∈ ReplaceAll s old new) :
    b = new ∨ (b ∈ s ∧ b ≠ old) := by
  simp only [ReplaceAll, List.mem_map] at h
  obtain ⟨a, ha, hab⟩ := h
  by_cases e : a = old
  · simp [e] at hab
    exact Or.inl hab.symm
  · simp [e] at hab
    exact Or.inr ⟨hab ▸ ha, hab ▸ e⟩

theorem replaced_clean (F : GoString) :
    chSpace ∉ replaced F ∧ chSlash ∉ replaced F ∧ chBackslash ∉ replaced F := by
  refine ⟨?_, ?_, ?_⟩
  · intro h
    rcases mem_ReplaceAll _ _ _ _ h with h | ⟨h, -⟩
    · exact absurd h (by decide)
    rcases mem_ReplaceAll _ _ _ _ h with h | ⟨h, -⟩
    · exact absurd h (by decide)
    rcases mem_ReplaceAll _ _ _ _ h with h | ⟨-, h⟩
    · exact absurd h (by decide)
    · exact h rfl
  · intro h
    rcases mem_ReplaceAll _ _ _ _ h with h | ⟨h, -⟩
    · exact absurd h (by decide)
    rcases mem_ReplaceAll _ _ _ _ h with h | ⟨-, h⟩
    · exact absurd h (by decide)
    · exact h rfl
  · intro h
    rcases mem_ReplaceAll _ _ _ _ h with h | ⟨-, h⟩
    · exact absurd h (by decide)
    · exact h rfl

theorem sanitize_eq (F : GoString) :
    sanitize F = if replaced F = [] ∨ replaced F = [chDot] then [chDot] else replaced F := by
  have := Clean_of_no_slash (replaced F) (replaced_clean F).2.1
  simpa [sanitize, replaced] using this

theorem sanitize_no_slash (F : GoString) : chSlash ∉ sanitize F := by
  rw [sanitize_eq]
  split
  · decide
  · exact (replaced_clean F).2.1

/-- Claim C9. The sanitized name contains no space, no `/` and no `\`. -/
theorem sanitize_no_separator (F : GoString) :
    chSpace ∉ sanitize F ∧ chSlash ∉ sanitize F ∧ chBackslash ∉ sanitize F := by
  have h := Clean_of_no_slash (replaced F) (replaced_clean F).2.1
  have e : sanitize F = Clean (replaced F) := rfl
  rw [e, h]
  split
  · decide
  · exact replaced_clean F

/-! ## The loop of `Clean` -/

theorem boundary_iff (t : GoString) :
    (t = [] ∨ (t.head?.map IsPathSeparator) = some true) ↔ AtBoundary t := by
  cases t with
  | nil => simp [AtBoundary]
  | cons d v => simp [AtBoundary, IsPathSeparator]

theorem cleanLoop_sep (rooted : Bool) (fuel : Nat) (t out : GoString) (dotdot : Nat) :
    cleanLoop rooted (fuel + 1) (chSlash :: t) out dotdot = cleanLoop rooted fuel t out dotdot := by
  simp [cleanLoop, IsPathSeparator]

theorem cleanLoop_dot (rooted : Bool) (fuel : Nat) (t out : GoString) (dotdot : Nat)
    (ht : AtBoundary t) :
    cleanLoop rooted (fuel + 1) (chDot :: t) out dotdot = cleanLoop rooted fuel t out dotdot := by
  have h1 : IsPathSeparator chDot = false := by decide
  have h2 := (boundary_iff t).2 ht
  rw [cleanLoop]
  simp only [h1, Bool.false_eq_true, ↓reduceIte, true_and, h2]

theorem cleanLoop_dotdot (rooted : Bool) (fuel : Nat) (t out : GoString) (dotdot : Nat)
    (ht : AtBoundary t) :
    cleanLoop rooted (fuel + 1) (chDot :: chDot :: t) out dotdot =
      if out.length > dotdot then cleanLoop rooted fuel t (backtrack out dotdot) dotdot
      else if !rooted then
        cleanLoop rooted fuel t (addSep false out ++ dotdotElem)
          (addSep false out ++ dotdotElem).length
      else cleanLoop rooted fuel t out dotdot := by
  have h1 : ¬ (IsPathSeparator chDot = true) := by decide
  have h2 := (boundary_iff t).2 ht
  have h3 : ¬ (chDot = chDot ∧ (chDot :: t = [] ∨
      (((chDot :: t).head?).map IsPathSeparator) = some true)) := by
    simp [h1]
  have h4 : chDot = chDot ∧ (chDot :: t).head? = some chDot ∧
      ((chDot :: t).tail = [] ∨ (((chDot :: t).tail.head?).map IsPathSeparator) = some true) := by
    refine ⟨rfl, rfl, ?_⟩
    simpa using h2
  rw [cleanLoop, if_neg h1, if_neg h3, if_pos h4]
  by_cases hw : out.length > dotdot
  · simp only [hw, ↓reduceIte, List.tail_cons]
  · simp only [hw, ↓reduceIte, List.tail_cons]
    cases rooted with
    | true => simp
    | false =>
      simp only [Bool.not_false, ↓reduceIte, addSep, dotdotElem]
      by_cases h0 : out.length > 0
      · have : out.length ≠ 0 := by omega
        simp [h0, this]
      · have : out.length = 0 := by omega
        simp [this]

theorem takeWhile_elem (e t : GoString) (he : chSlash ∉ e) (ht : AtBoundary t) :
    (e ++ t).takeWhile (fun b => !(IsPathSeparator b)) = e ∧
    (e ++ t).dropWhile (fun b => !(IsPathSeparator b)) = t := by
  induction e with
  | nil =>
    rcases ht with rfl | ⟨r, rfl⟩
    · simp
    · simp [IsPathSeparator]
  | cons c e ih =>
    have hc : c ≠ chSlash := fun h => he (by simp [h])
    have hs : chSlash ∉ e := fun h => he (by simp [h])
    have hsep : IsPathSeparator c = false := by simp [IsPathSeparator, hc]
    have := ih hs
    simp [List.takeWhile, List.dropWhile, hsep, this.1, this.2]

theorem cleanLoop_elem (rooted : Bool) (fuel : Nat) (e t out : GoString) (dotdot : Nat)
    (he : Normal e) (ht : AtBoundary t) :
    cleanLoop rooted (fuel + 1) (e ++ t) out dotdot =
      cleanLoop rooted fuel t (addSep rooted out ++ e) dotdot := by
  obtain ⟨hne, hsl, hd, hdd⟩ := he
  cases e with
  | nil => exact absurd rfl hne
  | cons c e' =>
    have hc : c ≠ chSlash := fun h => hsl (by simp [h])
    have hs' : chSlash ∉ e' := fun h => hsl (by simp [h])
    have hsep : IsPathSeparator c = false := by simp [IsPathSeparator, hc]
    have hb1 : ¬ (c = chDot ∧ AtBoundary (e' ++ t)) := by
      rintro ⟨rfl, hb⟩
      cases e' with
      | nil => exact hd rfl
      | cons d e'' =>
        rcases hb with hb | ⟨r, hb⟩
        · simp at hb
        · simp only [List.cons_append, List.cons.injEq] at hb
          exact hs' (by simp [hb.1])
    have hb2 : ¬ (c = chDot ∧ (e' ++ t).head? = some chDot ∧ AtBoundary (e' ++ t).tail) := by
      rintro ⟨rfl, hh, hb⟩
      cases e' with
      | nil =>
        rcases ht with rfl | ⟨r, rfl⟩
        · simp at hh
        · simp at hh
          exact absurd hh (by decide)
      | cons d e'' =>
        simp only [List.cons_append, List.head?_cons, Option.some.injEq] at hh
        subst hh
        simp only [List.cons_append, List.tail_cons] at hb
        cases e'' with
        | nil => exact hdd rfl
        | cons x e3 =>
          rcases hb with hb | ⟨r, hb⟩
          · simp at hb
          · simp only [List.cons_append, List.cons.injEq] at hb
            exact hsl (by simp [hb.1])
    have htd := takeWhile_elem (c :: e') t hsl ht
    simp only [List.cons_append] at htd
    rw [List.cons_append, cleanLoop]
    simp only [hsep, Bool.false_eq_true, ↓reduceIte, boundary_iff, hb1, hb2, htd.1, htd.2, addSep]

/-! ### The buffer -/

theorem addSep_eq (rooted : Bool) (out : GoString) :
    addSep rooted out =
      if out.length = (rootPrefix rooted).length then out else out ++ [chSlash] := by
  cases rooted <;> by_cases h : out.length = 0 <;> by_cases h1 : out.length = 1 <;>
    simp [addSep, rootPrefix, h, h1]

theorem length_le_addSep (rooted : Bool) (out : GoString) :
    out.length ≤ (addSep rooted out).length := by
  rw [addSep_eq]
  split <;> simp

theorem render_lt_cons (rooted : Bool) (e : GoString) (st : List GoString) (he : e ≠ []) :
    (render rooted st).length < (render rooted (e :: st)).length := by
  have h1 := length_le_addSep rooted (render rooted st)
  have h2 : 0 < e.length := List.length_pos.2 he
  simp only [render, List.length_append]
  omega

theorem render_le_append (rooted : Bool) (ns st : List GoString) :
    (render rooted st).length ≤ (render rooted (ns ++ st)).length := by
  induction ns with
  | nil => simp
  | cons e ns ih =>
    have h1 := length_le_addSep rooted (render rooted (ns ++ st))
    have h2 : render rooted (e :: ns ++ st) = addSep rooted (render rooted (ns ++ st)) ++ e := rfl
    rw [h2, List.length_append]
    omega

theorem rootPrefix_le_render (rooted : Bool) (st : List GoString) :
    (rootPrefix rooted).length ≤ (render rooted st).length := by
  have := render_le_append rooted st []
  simpa [render] using this

theorem backtrackIndex_stop (out : GoString) (dotdot n : Nat) :
    ∀ m : Nat,
      (∀ i, n < i → i ≤ n + m → dotdot < i ∧ IsPathSeparator (out.getD i 0) = false) →
      (n ≤ dotdot ∨ IsPathSeparator (out.getD n 0) = true) →
      backtrackIndex out dotdot (n + m) = n := by
  intro m
  induction m with
  | zero =>
    intro _ hstop
    cases n with
    | zero => rfl
    | succ n =>
      have : ¬ (n + 1 > dotdot ∧ (!(IsPathSeparator (out.getD (n + 1) 0))) = true) := by
        rintro ⟨h1, h2⟩
        rcases hstop with h | h
        · omega
        · rw [h] at h2
          exact absurd h2 (by decide)
      simp only [Nat.add_zero, backtrackIndex, this, ↓reduceIte]
  | succ m ih =>
    intro hrun hstop
    have h := hrun (n + m + 1) (by omega) (by omega)
    have hc : n + m + 1 > dotdot ∧ (!(IsPathSeparator (out.getD (n + m + 1) 0))) = true := by
      refine ⟨h.1, ?_⟩
      rw [h.2]
      rfl
    have e : n + (m + 1) = (n + m) + 1 := by omega
    rw [e, backtrackIndex, if_pos hc]
    exact ih (fun i h1 h2 => hrun i h1 (by omega)) hstop

theorem getD_not_sep (top : GoString) (hsl : chSlash ∉ top) (j : Nat) (hj : j < top.length) :
    IsPathSeparator (top.getD j 0) = false := by
  rw [List.getD_eq_getElem _ _ hj]
  have hm : top[j] ∈ top := List.getElem_mem hj
  have : top[j] ≠ chSlash := fun e => hsl (e ▸ hm)
  simp [IsPathSeparator, this]

/-- Backtracking over the last kept element gives the buffer without it. -/
theorem backtrack_render (rooted : Bool) (top : GoString) (st : List GoString) (dotdot : Nat)
    (htop : top ≠ []) (hsl : chSlash ∉ top)
    (hle : dotdot ≤ (render rooted st).length)
    (hge : (rootPrefix rooted).length ≤ dotdot) :
    backtrack (render rooted (top :: st)) dotdot = render rooted st := by
  have hpos : 0 < top.length := List.length_pos.2 htop
  simp only [render, backtrack]
  rw [addSep_eq]
  split
  · rename_i hB
    have hidx : backtrackIndex (render rooted st ++ top) dotdot
        ((render rooted st).length + (top.length - 1)) = (render rooted st).length := by
      apply backtrackIndex_stop
      · intro i h1 h2
        refine ⟨by omega, ?_⟩
        rw [List.getD_append_right _ _ _ _ (by omega)]
        exact getD_not_sep top hsl _ (by omega)
      · left
        omega
    have e : (render rooted st ++ top).length - 1 =
        (render rooted st).length + (top.length - 1) := by
      simp only [List.length_append]
      omega
    rw [e, hidx]
    simp
  · have hidx : backtrackIndex (render rooted st ++ [chSlash] ++ top) dotdot
        ((render rooted st).length + top.length) = (render rooted st).length := by
      apply backtrackIndex_stop
      · intro i h1 h2
        refine ⟨by omega, ?_⟩
        rw [List.getD_append_right _ _ _ _ (by simp; omega)]
        exact getD_not_sep top hsl _ (by simp; omega)
      · right
        rw [List.append_assoc, List.getD_append_right _ _ _ _ (le_refl _)]
        simp [IsPathSeparator]
    have e : (render rooted st ++ [chSlash] ++ top).length - 1 =
        (render rooted st).length + top.length := by
      simp only [List.length_append, List.length_singleton]
      omega
    rw [e, hidx]
    simp

/-! ### The loop of `Clean`, element by element -/

theorem exists_elem (rest : GoString) :
    ∃ e t, rest = e ++ t ∧ chSlash ∉ e ∧ AtBoundary t := by
  induction rest with
  | nil => exact ⟨[], [], rfl, by simp, Or.inl rfl⟩
  | cons c r ih =>
    by_cases hc : c = chSlash
    · exact ⟨[], c :: r, rfl, by simp, Or.inr ⟨r, by rw [hc]⟩⟩
    · obtain ⟨e, t, h1, h2, h3⟩ := ih
      refine ⟨c :: e, t, by simp [h1], ?_, h3⟩
      simp only [List.mem_cons, not_or]
      exact ⟨fun h => hc h.symm, h2⟩

@[simp] theorem stepElem_nil (rooted : Bool) (st : List GoString) :
    stepElem rooted st [] = st := by
  simp [stepElem]

@[simp] theorem stepElem_dot (rooted : Bool) (st : List GoString) :
    stepElem rooted st [chDot] = st := by
  simp [stepElem]

theorem stepElem_normal (rooted : Bool) (st : List GoString) (e : GoString) (he : Normal e) :
    stepElem rooted st e = e :: st := by
  obtain ⟨h1, -, h3, h4⟩ := he
  simp [stepElem, h1, h3, h4]

theorem dotdotElem_ne : dotdotElem ≠ [] ∧ dotdotElem ≠ [chDot] := by decide

theorem stepElem_dotdot_pop (rooted : Bool) (top : GoString) (below : List GoString)
    (h : top ≠ dotdotElem) : stepElem rooted (top :: below) dotdotElem = below := by
  simp [stepElem, dotdotElem_ne.1, dotdotElem_ne.2, h]

theorem stepElem_dotdot_dots (k : Nat) :
    stepElem false (List.replicate k dotdotElem) dotdotElem =
      List.replicate (k + 1) dotdotElem := by
  cases k with
  | zero => simp [stepElem, dotdotElem_ne.1, dotdotElem_ne.2]
  | succ k => simp [stepElem, dotdotElem_ne.1, dotdotElem_ne.2, List.replicate_succ]

theorem stepElem_dotdot_root : stepElem true [] dotdotElem = [] := by
  simp [stepElem, dotdotElem_ne.1, dotdotElem_ne.2]

theorem foldl_Split_elem (rooted : Bool) (st : List GoString) (e t : GoString)
    (he : chSlash ∉ e) (ht : AtBoundary t) :
    List.foldl (stepElem rooted) st (Split chSlash (e ++ t)) =
      List.foldl (stepElem rooted) (stepElem rooted st e) (Split chSlash t) := by
  rcases ht with rfl | ⟨r, rfl⟩
  · rw [List.append_nil, Split_of_not_mem _ _ he]
    simp [Split]
  · rw [Split_append, Split_of_not_mem _ _ he, Split_cons_sep]
    simp

theorem cleanLoop_spec (rooted : Bool) (fuel : Nat) :
    ∀ (rest : GoString) (ns : List GoString) (k : Nat) (out : GoString) (dotdot : Nat),
      rest.length ≤ fuel → CleanInv rooted ns k out dotdot →
      cleanLoop rooted fuel rest out dotdot =
        render rooted (List.foldl (stepElem rooted) (ns ++ List.replicate k dotdotElem)
          (Split chSlash rest)) := by
  induction fuel with
  | zero =>
    intro rest ns k out dotdot hlen inv
    have : rest = [] := List.length_eq_zero.1 (by omega)
    subst this
    simp [cleanLoop, Split, inv.out_eq]
  | succ fuel ih =>
    intro rest ns k out dotdot hlen inv
    obtain ⟨e, t, rfl, hsl, ht⟩ := exists_elem rest
    rw [foldl_Split_elem rooted _ e t hsl ht]
    simp only [List.length_append] at hlen
    by_cases he0 : e = []
    · subst he0
      rcases ht with rfl | ⟨r, rfl⟩
      · simp [cleanLoop_nil, Split, inv.out_eq]
      · rw [List.nil_append, cleanLoop_sep, stepElem_nil, Split_cons_sep]
        rw [ih r ns k out dotdot (by simp at hlen; omega) inv]
        simp
    have hepos : 0 < e.length := List.length_pos.2 he0
    by_cases he1 : e = [chDot]
    · subst he1
      rw [List.singleton_append, cleanLoop_dot _ _ _ _ _ ht, stepElem_dot]
      exact ih t ns k out dotdot (by omega) inv
    by_cases he2 : e = dotdotElem
    · subst he2
      have hlen2 : t.length ≤ fuel := by
        simp [dotdotElem] at hlen
        omega
      have e1 : dotdotElem ++ t = chDot :: chDot :: t := rfl
      rw [e1, cleanLoop_dotdot _ _ _ _ _ ht]
      cases ns with
      | cons top ns' =>
        have htop := inv.normal top (by simp)
        have hgt : out.length > dotdot := by
          rw [inv.out_eq, inv.dotdot_eq, List.cons_append]
          have h1 := render_lt_cons rooted top (ns' ++ List.replicate k dotdotElem) htop.1
          have h2 := render_le_append rooted ns' (List.replicate k dotdotElem)
          omega
        rw [if_pos hgt, List.cons_append, stepElem_dotdot_pop _ _ _ htop.2.2.2]
        apply ih t ns' k _ dotdot hlen2
        refine ⟨fun x hx => inv.normal x (by simp [hx]), inv.root_k, ?_, inv.dotdot_eq⟩
        rw [inv.out_eq, List.cons_append]
        apply backtrack_render _ _ _ _ htop.1 htop.2.1
        · rw [inv.dotdot_eq]
          exact render_le_append rooted ns' (List.replicate k dotdotElem)
        · rw [inv.dotdot_eq]
          exact rootPrefix_le_render rooted _
      | nil =>
        have hngt : ¬ out.length > dotdot := by
          rw [inv.out_eq, inv.dotdot_eq]
          simp
        rw [if_neg hngt]
        cases rooted with
        | true =>
          have hk := inv.root_k rfl
          subst hk
          simp only [Bool.not_true, Bool.false_eq_true, ↓reduceIte, List.nil_append,
            List.replicate_zero, stepElem_dotdot_root]
          have := ih t [] 0 out dotdot hlen2 inv
          simpa using this
        | false =>
          simp only [Bool.not_false, ↓reduceIte, List.nil_append, stepElem_dotdot_dots]
          have hout : addSep false out ++ dotdotElem =
              render false (List.replicate (k + 1) dotdotElem) := by
            rw [inv.out_eq, List.replicate_succ]
            rfl
          have := ih t [] (k + 1) (addSep false out ++ dotdotElem)
            (addSep false out ++ dotdotElem).length hlen2
            ⟨by simp, by simp, by simpa using hout, by rw [hout]⟩
          simpa using this
    · have hN : Normal e := ⟨he0, hsl, he1, he2⟩
      rw [cleanLoop_elem _ _ _ _ _ _ hN ht, stepElem_normal _ _ _ hN]
      have := ih t (e :: ns) k (addSep rooted out ++ e) dotdot (by omega)
        ⟨by
          intro x hx
          rcases List.mem_cons.1 hx with h | h
          · exact h ▸ hN
          · exact inv.normal x h,
         inv.root_k, by rw [inv.out_eq]; rfl, inv.dotdot_eq⟩
      simpa using this

/-! ## `Clean` by elements -/

/-- The function `Clean`, element by element: the kept elements joined after the root
separator, and `.` when that is empty. -/
theorem Clean_eq (path : GoString) :
    Clean path =
      if render (isRooted path) (cleanElems path) = [] then [chDot]
      else render (isRooted path) (cleanElems path) := by
  cases path with
  | nil => decide
  | cons c t =>
    by_cases hc : c = chSlash
    · subst hc
      have hr : isRooted (chSlash :: t) = true := by simp [isRooted, IsPathSeparator]
      have hr2 : IsPathSeparator chSlash = true := by decide
      have h := cleanLoop_spec true (t.length + 1) t [] 0 [chSlash] 1 (by omega)
        ⟨by simp, by simp, by decide, by decide⟩
      simp only [Clean, List.headD_cons, hr2, ↓reduceIte, List.tail_cons, List.length_cons,
        cleanElems, hr, Split_cons_sep, List.foldl_cons, stepElem_nil, reduceCtorEq]
      simp only [List.nil_append, List.replicate_zero] at h
      rw [h]
      simp [List.length_eq_zero]
    · have hr2 : IsPathSeparator c = false := by simp [IsPathSeparator, hc]
      have hr : isRooted (c :: t) = false := by simp [isRooted, hr2]
      have h := cleanLoop_spec false (t.length + 1) (c :: t) [] 0 [] 0 (by simp)
        ⟨by simp, by simp, by decide, by decide⟩
      simp only [Clean, List.headD_cons, hr2, Bool.false_eq_true, ↓reduceIte, List.length_cons,
        cleanElems, hr, reduceCtorEq]
      simp only [List.nil_append, List.replicate_zero] at h
      rw [h]
      simp [List.length_eq_zero]

/-! ### The kept elements are canonical -/

theorem Normal_nonempty (e : GoString) (h : Normal e) : e ≠ [] ∧ chSlash ∉ e :=
  ⟨h.1, h.2.1⟩

theorem Canon_elem (rooted : Bool) (st : List GoString) (h : Canon rooted st) :
    ∀ e ∈ st, e ≠ [] ∧ chSlash ∉ e := by
  obtain ⟨ns, k, rfl, hn, -⟩ := h
  intro e he
  rcases List.mem_append.1 he with h1 | h1
  · exact Normal_nonempty e (hn e h1)
  · rw [List.eq_of_mem_replicate h1]
    decide

theorem Canon_nil (rooted : Bool) : Canon rooted [] :=
  ⟨[], 0, rfl, by simp, fun _ => rfl⟩

theorem Canon_step (rooted : Bool) (st : List GoString) (e : GoString)
    (h : Canon rooted st) (he : chSlash ∉ e) : Canon rooted (stepElem rooted st e) := by
  by_cases he0 : e = []
  · subst he0; simpa using h
  by_cases he1 : e = [chDot]
  · subst he1; simpa using h
  by_cases he2 : e = dotdotElem
  · subst he2
    obtain ⟨ns, k, rfl, hn, hk⟩ := h
    cases ns with
    | cons top ns' =>
      rw [List.cons_append, stepElem_dotdot_pop _ _ _ (hn top (by simp)).2.2.2]
      exact ⟨ns', k, rfl, fun x hx => hn x (by simp [hx]), hk⟩
    | nil =>
      cases rooted with
      | true =>
        have := hk rfl
        subst this
        simp only [List.nil_append, List.replicate_zero, stepElem_dotdot_root]
        exact Canon_nil true
      | false =>
        rw [List.nil_append, stepElem_dotdot_dots]
        exact ⟨[], k + 1, rfl, by simp, by simp⟩
  · have hN : Normal e := ⟨he0, he, he1, he2⟩
    obtain ⟨ns, k, rfl, hn, hk⟩ := h
    rw [stepElem_normal _ _ _ hN]
    refine ⟨e :: ns, k, rfl, ?_, hk⟩
    intro x hx
    rcases List.mem_cons.1 hx with h1 | h1
    · exact h1 ▸ hN
    · exact hn x h1

theorem Canon_foldl (rooted : Bool) (es : List GoString) :
    ∀ st : List GoString, Canon rooted st → (∀ e ∈ es, chSlash ∉ e) →
      Canon rooted (List.foldl (stepElem rooted) st es) := by
  induction es with
  | nil => intro st h _; simpa using h
  | cons e es ih =>
    intro st h hes
    rw [List.foldl_cons]
    exact ih _ (Canon_step rooted st e h (hes e (by simp))) (fun x hx => hes x (by simp [hx]))

theorem Canon_cleanElems (path : GoString) : Canon (isRooted path) (cleanElems path) :=
  Canon_foldl _ _ _ (Canon_nil _) (fun e he => not_mem_of_mem_Split chSlash path e he)

/-! ### Cleaning a clean path -/

theorem Join_concat (sep : Byte) (l : List GoString) (e : GoString) (hl : l ≠ []) :
    Join sep (l ++ [e]) = Join sep l ++ sep :: e := by
  induction l with
  | nil => exact absurd rfl hl
  | cons a l ih =>
    cases l with
    | nil => simp [Join]
    | cons b l =>
      have := ih (by simp)
      simp only [List.cons_append, Join] at this ⊢
      simp [this]

theorem Join_eq_nil (sep : Byte) (l : List GoString) (hl : ∀ e ∈ l, e ≠ [])
    (h : Join sep l = []) : l = [] := by
  cases l with
  | nil => rfl
  | cons a l =>
    cases l with
    | nil => exact absurd (by simpa [Join] using h) (hl a (by simp))
    | cons b l => simp [Join] at h

theorem render_eq_Join (rooted : Bool) (st : List GoString) (hst : ∀ e ∈ st, e ≠ []) :
    render rooted st = rootPrefix rooted ++ Join chSlash st.reverse := by
  induction st with
  | nil => simp [render, Join]
  | cons e st ih =>
    have ih := ih (fun x hx => hst x (by simp [hx]))
    rw [render, addSep_eq, ih]
    by_cases hs : st = []
    · subst hs
      simp [Join]
    · have hne : st.reverse ≠ [] := by simpa using hs
      have hj : Join chSlash st.reverse ≠ [] := by
        intro h
        exact hne (Join_eq_nil chSlash _ (fun x hx => hst x (by simp [List.mem_reverse.1 hx])) h)
      have hl : ¬ (rootPrefix rooted ++ Join chSlash st.reverse).length =
          (rootPrefix rooted).length := by
        have := List.length_pos.2 hj
        simp only [List.length_append]
        omega
      rw [if_neg hl, List.reverse_cons, Join_concat _ _ _ hne]
      simp

theorem foldl_dots (j k : Nat) :
    List.foldl (stepElem false) (List.replicate j dotdotElem) (List.replicate k dotdotElem) =
      List.replicate (j + k) dotdotElem := by
  induction k generalizing j with
  | zero => simp
  | succ k ih =>
    rw [List.replicate_succ, List.foldl_cons, stepElem_dotdot_dots, ih]
    congr 1
    omega

theorem foldl_normals (rooted : Bool) (ns st : List GoString) (hn : ∀ e ∈ ns, Normal e) :
    List.foldl (stepElem rooted) st ns.reverse = ns ++ st := by
  induction ns with
  | nil => simp
  | cons e ns ih =>
    rw [List.reverse_cons, List.foldl_append, ih (fun x hx => hn x (by simp [hx]))]
    simp [stepElem_normal _ _ _ (hn e (by simp))]

theorem foldl_canon (rooted : Bool) (st : List GoString) (h : Canon rooted st) :
    List.foldl (stepElem rooted) [] st.reverse = st := by
  obtain ⟨ns, k, rfl, hn, hk⟩ := h
  rw [List.reverse_append, List.reverse_replicate, List.foldl_append]
  have hd : List.foldl (stepElem rooted) [] (List.replicate k dotdotElem) =
      List.replicate k dotdotElem := by
    cases rooted with
    | true => rw [hk rfl]; rfl
    | false => simpa using foldl_dots 0 k
  rw [hd, foldl_normals _ _ _ hn]

theorem isRooted_render (rooted : Bool) (st : List GoString) (h : Canon rooted st)
    (hne : render rooted st ≠ []) : isRooted (render rooted st) = rooted := by
  have hel := Canon_elem rooted st h
  rw [render_eq_Join rooted st (fun e he => (hel e he).1)] at hne ⊢
  cases rooted with
  | true => simp [rootPrefix, isRooted, IsPathSeparator]
  | false =>
    simp only [rootPrefix, Bool.false_eq_true, ↓reduceIte, List.nil_append] at hne ⊢
    cases hr : st.reverse with
    | nil => rw [hr] at hne; exact absurd rfl hne
    | cons a l =>
      have ha : a ∈ st := List.mem_reverse.1 (by rw [hr]; simp)
      obtain ⟨ha1, ha2⟩ := hel a ha
      cases a with
      | nil => exact absurd rfl ha1
      | cons c a' =>
        have hc : c ≠ chSlash := fun e => ha2 (by simp [e])
        cases l with
        | nil => simp [Join, isRooted, IsPathSeparator, hc]
        | cons b l => simp [Join, isRooted, IsPathSeparator, hc]

theorem cleanElems_render (rooted : Bool) (st : List GoString) (h : Canon rooted st)
    (hne : render rooted st ≠ []) : cleanElems (render rooted st) = st := by
  have hel := Canon_elem rooted st h
  have hrt := isRooted_render rooted st h hne
  rw [cleanElems, hrt]
  rw [render_eq_Join rooted st (fun e he => (hel e he).1)] at hne ⊢
  by_cases hs : st = []
  · subst hs
    cases rooted with
    | true => decide
    | false => exact absurd (by decide) hne
  · have hne2 : st.reverse ≠ [] := by simpa using hs
    have hsp : Split chSlash (Join chSlash st.reverse) = st.reverse :=
      Split_Join chSlash _ hne2 (fun e he => (hel e (List.mem_reverse.1 he)).2)
    cases rooted with
    | true =>
      simp only [rootPrefix, ↓reduceIte, List.singleton_append, Split_cons_sep, hsp,
        List.foldl_cons, stepElem_nil]
      exact foldl_canon true st h
    | false =>
      simp only [rootPrefix, Bool.false_eq_true, ↓reduceIte, List.nil_append, hsp]
      exact foldl_canon false st h

/-- The function `Clean` is idempotent: a cleaned path is its own cleaning. -/
theorem Clean_idem (path : GoString) : Clean (Clean path) = Clean path := by
  rw [Clean_eq path]
  split
  · decide
  · rename_i hne
    have hc := Canon_cleanElems path
    rw [Clean_eq (render (isRooted path) (cleanElems path)),
      isRooted_render _ _ hc hne, cleanElems_render _ _ hc hne, if_neg hne]

/-! ## Paths below `ROOTDIR/files` -/

theorem isRooted_append (a b : GoString) (ha : a ≠ []) : isRooted (a ++ b) = isRooted a := by
  cases a with
  | nil => exact absurd rfl ha
  | cons c a => rfl

theorem render_cons_ne_nil (rooted : Bool) (e : GoString) (st : List GoString) (he : e ≠ []) :
    render rooted (e :: st) ≠ [] := by
  intro h
  have := render_lt_cons rooted e st he
  rw [h] at this
  simp at this

theorem render_cons_ne_root (rooted : Bool) (e : GoString) (st : List GoString) (he : e ≠ []) :
    (render rooted (e :: st)).length ≠ (rootPrefix rooted).length := by
  have h1 := render_lt_cons rooted e st he
  have h2 := rootPrefix_le_render rooted st
  omega

/-- The cleaning of `dir/name`, for a directory path of which `Clean` keeps
some element and a name without `/` other than `..`: the cleaned directory
for the name `.`, and the cleaned directory, `/` and the name otherwise. -/
theorem Clean_child (dir name : GoString) (hdir : cleanElems dir ≠ [])
    (h1 : name ≠ []) (h2 : chSlash ∉ name) (h3 : name ≠ dotdotElem) :
    Clean (dir ++ chSlash :: name) =
      if name = [chDot] then Clean dir else Clean dir ++ chSlash :: name := by
  have hne : dir ≠ [] := by
    intro h
    apply hdir
    rw [h]
    decide
  obtain ⟨top, rest, htr⟩ := List.exists_cons_of_ne_nil hdir
  have htop : top ≠ [] :=
    (Canon_elem _ _ (Canon_cleanElems dir) top (by rw [htr]; simp)).1
  have hce : cleanElems (dir ++ chSlash :: name) =
      stepElem (isRooted dir) (cleanElems dir) name := by
    rw [cleanElems, isRooted_append _ _ hne, Split_append, Split_of_not_mem _ _ h2,
      List.foldl_append]
    rfl
  have hdirc : Clean dir = render (isRooted dir) (top :: rest) := by
    rw [Clean_eq, htr, if_neg (render_cons_ne_nil _ _ _ htop)]
  rw [Clean_eq (dir ++ chSlash :: name), isRooted_append _ _ hne, hce, hdirc, htr]
  by_cases hd : name = [chDot]
  · subst hd
    rw [stepElem_dot, if_pos rfl, if_neg (render_cons_ne_nil _ _ _ htop)]
  · have hN : Normal name := ⟨h1, h2, hd, h3⟩
    rw [stepElem_normal _ _ _ hN, if_neg hd, if_neg (render_cons_ne_nil _ _ _ h1)]
    rw [render, addSep_eq, if_neg (render_cons_ne_root _ _ _ htop)]
    simp

theorem cleanElems_files_dir (ROOTDIR sub : GoString) (hsub : Normal sub) :
    cleanElems (ROOTDIR ++ chSlash :: (ascii "files" ++ chSlash :: sub)) ≠ [] := by
  have hf : Normal (ascii "files") := by
    unfold Normal
    decide
  have hne : ROOTDIR ++ chSlash :: ascii "files" ≠ [] := by simp
  have e : ROOTDIR ++ chSlash :: (ascii "files" ++ chSlash :: sub) =
      (ROOTDIR ++ chSlash :: ascii "files") ++ chSlash :: sub := by simp
  rw [e, cleanElems, Split_append, Split_of_not_mem _ _ hsub.2.1, List.foldl_append]
  simp [stepElem_normal _ _ _ hsub]

theorem cleanElems_versioned_dir (ROOTDIR : GoString) :
    cleanElems (ROOTDIR ++ ascii "/files/versioned") ≠ [] := by
  have hn : Normal (ascii "versioned") := by
    unfold Normal
    decide
  exact cleanElems_files_dir ROOTDIR (ascii "versioned") hn

theorem cleanElems_unversioned_dir (ROOTDIR : GoString) :
    cleanElems (ROOTDIR ++ ascii "/files/unversioned") ≠ [] := by
  have hn : Normal (ascii "unversioned") := by
    unfold Normal
    decide
  exact cleanElems_files_dir ROOTDIR (ascii "unversioned") hn

/-- The path a versioned retrieval reads, for a hash segment other than
`..`: the directory `ROOTDIR/files/versioned` itself for `.`, and the entry
of that name in it otherwise. -/
theorem versionedPath_eq (ROOTDIR hash : GoString) (h1 : hash ≠ [])
    (h2 : chSlash ∉ hash) (h3 : hash ≠ ascii "..") :
    versionedPath ROOTDIR hash =
      if hash = [chDot] then Clean (ROOTDIR ++ ascii "/files/versioned")
      else Clean (ROOTDIR ++ ascii "/files/versioned") ++ chSlash :: hash := by
  have e : ROOTDIR ++ ascii "/files/versioned/" ++ hash =
      (ROOTDIR ++ ascii "/files/versioned") ++ chSlash :: hash := by
    have : ascii "/files/versioned/" = ascii "/files/versioned" ++ [chSlash] := by decide
    rw [this]
    simp
  rw [versionedPath, e]
  exact Clean_child _ hash (cleanElems_versioned_dir ROOTDIR) h1 h2 h3

/-- The canonical path of the file an unversioned upload creates, for a name
without `/` other than `..`. -/
theorem unversionedPath_eq (ROOTDIR ffName : GoString) (h1 : ffName ≠ [])
    (h2 : chSlash ∉ ffName) (h3 : ffName ≠ ascii "..") :
    Clean (unversionedPath ROOTDIR ffName) =
      if ffName = [chDot] then Clean (ROOTDIR ++ ascii "/files/unversioned")
      else Clean (ROOTDIR ++ ascii "/files/unversioned") ++ chSlash :: ffName := by
  have e : ROOTDIR ++ ascii "/files/unversioned/" ++ ffName =
      (ROOTDIR ++ ascii "/files/unversioned") ++ chSlash :: ffName := by
    have : ascii "/files/unversioned/" = ascii "/files/unversioned" ++ [chSlash] := by decide
    rw [this]
    simp
  rw [unversionedPath, e]
  exact Clean_child _ ffName (cleanElems_unversioned_dir ROOTDIR) h1 h2 h3

theorem liesWithin_of_eq (base p name : GoString)
    (h : p = if name = [chDot] then base else base ++ chSlash :: name) :
    liesWithin base p = true := by
  rw [h]
  split <;> simp [liesWithin]

theorem sanitize_ne_nil (F : GoString) : sanitize F ≠ [] := by
  rw [sanitize_eq]
  split
  · decide
  · rename_i h
    exact fun e => h (Or.inl e)

theorem replaced_eq_dotdot (F : GoString) : replaced F = ascii ".." ↔ F = ascii ".." := by
  constructor
  · intro h
    have hmap : ∀ b : Byte,
        (if (if (if b = chSpace then chUnderscore else b) = chSlash then chUnderscore
            else (if b = chSpace then chUnderscore else b)) = chBackslash then chUnderscore
          else (if (if b = chSpace then chUnderscore else b) = chSlash then chUnderscore
            else (if b = chSpace then chUnderscore else b))) = chDot → b = chDot := by
      intro b
      by_cases e1 : b = chSpace
      · subst e1; decide
      by_cases e2 : b = chSlash
      · subst e2; decide
      by_cases e3 : b = chBackslash
      · subst e3; decide
      simp [e1, e2, e3]
    match F, h with
    | [a, b], h =>
      simp only [replaced, ReplaceAll, List.map_cons, List.map_nil] at h
      have h' : ascii ".." = [chDot, chDot] := by decide
      rw [h'] at h ⊢
      simp only [List.cons.injEq, and_true] at h
      rw [hmap a h.1, hmap b h.2]
    | [], h => exact absurd h (by decide)
    | [a], h =>
      have := congrArg List.length h
      have hl : (ascii "..").length = 2 := by decide
      simp [replaced, ReplaceAll, hl] at this
    | a :: b :: c :: t, h =>
      have := congrArg List.length h
      have hl : (ascii "..").length = 2 := by decide
      simp [replaced, ReplaceAll, hl] at this
  · intro h
    rw [h]
    decide

/-- The sanitized name is `..` for the name `..` and for no other. -/
theorem sanitize_eq_dotdot (F : GoString) : sanitize F = ascii ".." ↔ F = ascii ".." := by
  constructor
  · intro e
    rw [sanitize_eq] at e
    split at e
    · exact absurd e (by decide)
    · exact (replaced_eq_dotdot F).1 e
  · intro e
    rw [e]
    decide

/-- Every name but `..` is kept within the base directory: the canonical
path of the file `handleUpload` creates for it is the canonical
`ROOTDIR/files/unversioned` or lies below it. -/
theorem unversionedPath_within (ROOTDIR F : GoString) (h : F ≠ ascii "..") :
    liesWithin (Clean (ROOTDIR ++ ascii "/files/unversioned"))
      (Clean (unversionedPath ROOTDIR (sanitize F))) = true :=
  liesWithin_of_eq _ _ (sanitize F)
    (unversionedPath_eq ROOTDIR (sanitize F) (sanitize_ne_nil F) (sanitize_no_slash F)
      (fun e => h ((sanitize_eq_dotdot F).1 e)))

/-- Claim C2, at the name `..`: the sanitized name is `..` again, and the
file name `handleUpload` makes of it under the root `/srv` resolves to
`/srv/files`, the parent of the base directory `/srv/files/unversioned`;
the name `../../etc/passwd` is made a single segment. -/
theorem sanitize_dotdot_escapes :
    sanitize (ascii "..") = ascii ".." ∧
    Clean (unversionedPath demoRoot (sanitize (ascii ".."))) = ascii "/srv/files" ∧
    liesWithin (Clean (demoRoot ++ ascii "/files/unversioned"))
      (Clean (unversionedPath demoRoot (sanitize (ascii "..")))) = false ∧
    sanitize (ascii "../../etc/passwd") = ascii ".._.._etc_passwd" := by
  decide

/-- For every root directory and every hash segment that is not empty, has no
`/` and is not `..`, the path the versioned retrieval reads is the canonical
directory `ROOTDIR/files/versioned` or that directory, `/` and the segment. -/
theorem versionedPath_within (ROOTDIR hash : GoString) (h1 : hash ≠ [])
    (h2 : chSlash ∉ hash) (h3 : hash ≠ ascii "..") :
    (versionedPath ROOTDIR hash = Clean (ROOTDIR ++ ascii "/files/versioned") ∨
      versionedPath ROOTDIR hash =
        Clean (ROOTDIR ++ ascii "/files/versioned") ++ chSlash :: hash) ∧
    liesWithin (Clean (ROOTDIR ++ ascii "/files/versioned")) (versionedPath ROOTDIR hash) =
      true := by
  have h := versionedPath_eq ROOTDIR hash h1 h2 h3
  refine ⟨?_, liesWithin_of_eq _ _ hash h⟩
  rw [h]
  split
  · exact Or.inl rfl
  · exact Or.inr rfl

/-! ## The hash segments the router delivers -/

theorem matchVersionedRoute_some (urlPath hash fileName : GoString)
    (h : matchVersionedRoute urlPath = some (hash, fileName)) :
    Split chSlash urlPath = [[], ascii "files", ascii "versioned", hash, fileName] ∧
    hash ≠ [] ∧ fileName ≠ [] := by
  unfold matchVersionedRoute at h
  split at h
  · rename_i e0 e1 e2 hs fn heq
    split at h
    · rename_i hc
      obtain ⟨h0, h1, h2, h3, h4⟩ := hc
      simp only [Option.some.injEq, Prod.mk.injEq] at h
      obtain ⟨rfl, rfl⟩ := h
      subst h0 h1 h2
      exact ⟨heq, h3, h4⟩
    · exact absurd h (by simp)
  · exact absurd h (by simp)

/-- A URL path that matches the template is `/files/versioned/`, the hash,
`/` and the file name, and neither segment has a `/`. -/
theorem matched_path_eq (urlPath hash fileName : GoString)
    (h : matchVersionedRoute urlPath = some (hash, fileName)) :
    urlPath = (ascii "/files/versioned/" ++ hash) ++ chSlash :: fileName ∧
    chSlash ∉ hash ∧ chSlash ∉ fileName ∧ hash ≠ [] ∧ fileName ≠ [] := by
  obtain ⟨hs, h1, h2⟩ := matchVersionedRoute_some urlPath hash fileName h
  have hj := Join_Split chSlash urlPath
  rw [hs] at hj
  have hm1 : hash ∈ Split chSlash urlPath := by rw [hs]; simp
  have hm2 : fileName ∈ Split chSlash urlPath := by rw [hs]; simp
  refine ⟨?_, not_mem_of_mem_Split _ _ _ hm1, not_mem_of_mem_Split _ _ _ hm2, h1, h2⟩
  rw [← hj]
  have e : ascii "/files/versioned/" =
      chSlash :: (ascii "files" ++ chSlash :: (ascii "versioned" ++ [chSlash])) := by decide
  rw [e]
  simp [Join]

theorem getLast?_append_cons (a n : GoString) (c : Byte) (hn : n ≠ []) :
    (a ++ c :: n).getLast? = n.getLast? := by
  have h1 : c :: n ≠ [] := by simp
  rw [List.getLast?_append_of_ne_nil _ h1]
  cases n with
  | nil => exact absurd rfl hn
  | cons d t => simp [List.getLast?_cons_cons]

/-- On a matched path `cleanPath` is `Clean`: the path is rooted and does not
end in a separator. -/
theorem cleanPath_matched (hash fileName : GoString) (hf : fileName ≠ [])
    (hfs : chSlash ∉ fileName) :
    cleanPath ((ascii "/files/versioned/" ++ hash) ++ chSlash :: fileName) =
      Clean ((ascii "/files/versioned/" ++ hash) ++ chSlash :: fileName) := by
  have hne : (ascii "/files/versioned/" ++ hash) ++ chSlash :: fileName ≠ [] := by simp
  have hhead : ((ascii "/files/versioned/" ++ hash) ++ chSlash :: fileName).headD 0 = chSlash := by
    have e : ascii "/files/versioned/" = chSlash :: ascii "files/versioned/" := by decide
    rw [e]
    rfl
  have hlast : ((ascii "/files/versioned/" ++ hash) ++ chSlash :: fileName).getLast? ≠
      some chSlash := by
    rw [getLast?_append_cons _ _ _ hf]
    intro e
    exact hfs (List.mem_of_mem_getLast? e)
  simp only [cleanPath, hne, ↓reduceIte, hhead, ne_eq, not_true_eq_false, hlast, false_and]

/-- A path whose directory part gets shorter by cleaning is not its own
cleaning. -/
theorem Clean_ne_of_shorter (dir name : GoString) (hdir : cleanElems dir ≠ [])
    (hlen : (Clean dir).length < dir.length)
    (h1 : name ≠ []) (h2 : chSlash ∉ name) (h3 : name ≠ dotdotElem) :
    Clean (dir ++ chSlash :: name) ≠ dir ++ chSlash :: name := by
  intro e
  have hc := Clean_child dir name hdir h1 h2 h3
  rw [e] at hc
  have hl := congrArg List.length hc
  split at hl
  · simp only [List.length_append, List.length_cons] at hl
    omega
  · simp only [List.length_append, List.length_cons] at hl
    omega

/-- The router delivers neither `.` nor `..` as hash segment: a path with
such a segment is not its own cleaning and is answered 301. -/
theorem routed_hash_normal (urlPath hash fileName : GoString)
    (h : routeVars urlPath = some (hash, fileName)) :
    hash ≠ [] ∧ chSlash ∉ hash ∧ hash ≠ [chDot] ∧ hash ≠ ascii ".." := by
  unfold routeVars at h
  split at h
  · exact absurd h (by simp)
  rename_i hcl
  have hcl : cleanPath urlPath = urlPath := by simpa using hcl
  obtain ⟨hp, hs, hfs, hh, hf⟩ := matched_path_eq urlPath hash fileName h
  rw [hp, cleanPath_matched hash fileName hf hfs] at hcl
  refine ⟨hh, hs, ?_, ?_⟩
  · intro hd
    subst hd
    by_cases hn : fileName = dotdotElem
    · subst hn
      exact absurd hcl (by decide)
    · exact Clean_ne_of_shorter (ascii "/files/versioned/" ++ [chDot]) fileName (by decide)
        (by decide) hf hfs hn hcl
  · intro hd
    subst hd
    by_cases hn : fileName = dotdotElem
    · subst hn
      exact absurd hcl (by decide)
    · exact Clean_ne_of_shorter (ascii "/files/versioned/" ++ ascii "..") fileName (by decide)
        (by decide) hf hfs hn hcl

/-- Claim C3. For every root directory and every hash segment the router
delivers to `handleVersioned` (a segment of a URL path that is its own
cleaning and matches `/files/versioned/{hash}/{fileName}`), the path the
handler reads, `Clean(ROOTDIR + "/files/versioned/" + hash)`, is the canonical
directory `ROOTDIR/files/versioned` followed by `/` and the segment: it lies
inside that directory.  The router calls the handler with exactly these
variables, and answers 301 itself when the path is not its own cleaning. -/
theorem routed_versionedPath_inside (ROOTDIR urlPath hash fileName : GoString)
    (h : routeVars urlPath = some (hash, fileName)) :
    hash ≠ [] ∧ chSlash ∉ hash ∧
    versionedPath ROOTDIR hash =
      Clean (ROOTDIR ++ ascii "/files/versioned") ++ chSlash :: hash ∧
    liesWithin (Clean (ROOTDIR ++ ascii "/files/versioned")) (versionedPath ROOTDIR hash) =
      true ∧
    versionedPath ROOTDIR hash ≠ Clean (ROOTDIR ++ ascii "/files/versioned") ∧
    (∀ (world : World) (method : GoString),
      method = ascii "GET" ∨ method = ascii "OPTIONS" →
      routeVersioned ROOTDIR world method urlPath =
        handleVersioned ROOTDIR world (routedRequest method hash fileName)) ∧
    (∀ (world : World) (method p : GoString), cleanPath p ≠ p →
      (routeVersioned ROOTDIR world method p).status = 301) := by
  obtain ⟨h1, h2, h3, h4⟩ := routed_hash_normal urlPath hash fileName h
  have he := versionedPath_eq ROOTDIR hash h1 h2 h4
  rw [if_neg h3] at he
  refine ⟨h1, h2, he, ?_, ?_, ?_, ?_⟩
  · rw [he]
    simp [liesWithin]
  · rw [he]
    intro e
    have := congrArg List.length e
    simp at this
  · intro world method hm
    unfold routeVars at h
    split at h
    · exact absurd h (by simp)
    · rename_i hcl
      simp only [routeVersioned, hcl, ↓reduceIte, h, hm]
  · intro world method p hp
    unfold routeVersioned
    rw [if_pos hp]
    rfl

theorem routed_versionedPath_inside_witness :
    routeVars (ascii "/files/versioned/0a1b/x.bin") = some (ascii "0a1b", ascii "x.bin") ∧
    versionedPath demoRoot (ascii "0a1b") = ascii "/srv/files/versioned/0a1b" ∧
    liesWithin (Clean (demoRoot ++ ascii "/files/versioned"))
      (versionedPath demoRoot (ascii "0a1b")) = true :=
  ⟨by decide, by decide,
    (routed_versionedPath_inside demoRoot (ascii "/files/versioned/0a1b/x.bin") (ascii "0a1b")
      (ascii "x.bin") (by decide)).2.2.2.1⟩

/-- The paths with the hash segment `..` are answered 301 by the router and
do not reach the handler. -/
theorem routed_dotdot_redirected :
    routeVars (ascii "/files/versioned/../x") = none ∧
    (routeVersioned demoRoot oneFileWorld (ascii "GET") (ascii "/files/versioned/../x")).status
      = 301 ∧
    Header.Get (routeVersioned demoRoot oneFileWorld (ascii "GET")
      (ascii "/files/versioned/../x")).sentHeader (ascii "Location") = some (ascii "/files/x") ∧
    (routeVersioned demoRoot oneFileWorld (ascii "GET") (ascii "/files/versioned/abc/x")).status
      = 200 := by
  decide

/-! ## Versioned retrieval -/

theorem get_ne_options : ascii "GET" ≠ ascii "OPTIONS" := by decide

/-- A retrieval that finds its file: status 200, the stored bytes as body,
and, sent with the status line, the header map as it was when `WriteHeader`
was called: the three CORS headers. -/
theorem handleVersioned_found (ROOTDIR : GoString) (world : World) (r : Request)
    (fileToOpen fileName : GoString) (b : List Byte)
    (hm : r.Method ≠ ascii "OPTIONS")
    (hh : r.Var (ascii "hash") = some fileToOpen)
    (hn : r.Var (ascii "fileName") = some fileName)
    (hf : world.ReadFile (versionedPath ROOTDIR fileToOpen) = some b) :
    (handleVersioned ROOTDIR world r).status = 200 ∧
    (handleVersioned ROOTDIR world r).body = b ∧
    (handleVersioned ROOTDIR world r).sentHeader = (setCors ResponseWriter.fresh).header := by
  simp only [handleVersioned, hm, ↓reduceIte, hh, hn, hf]
  exact ⟨rfl, by simp [ResponseWriter.Write, ResponseWriter.WriteHeader, ResponseWriter.SetHeader,
    setCors, ResponseWriter.fresh], rfl⟩

/-- Claim C4, at a stored file: the retrieval of `/srv/files/versioned/abc`
under the name `x.bin` sends status 200 and the stored bytes, but the headers
sent are the three CORS headers only: `Content-Disposition`,
`Content-Length` and `Content-Transfer-Encoding` are set in the header map
after `WriteHeader` and are not sent. -/
theorem versioned_download_headers_not_sent :
    (handleVersioned demoRoot oneFileWorld (demoGet (ascii "abc") (ascii "x.bin"))).status = 200 ∧
    (handleVersioned demoRoot oneFileWorld (demoGet (ascii "abc") (ascii "x.bin"))).body =
      [1, 2, 3] ∧
    (handleVersioned demoRoot oneFileWorld (demoGet (ascii "abc") (ascii "x.bin"))).sentHeader =
      [(ascii "Access-Control-Allow-Origin", ascii "*"),
       (ascii "Access-Control-Allow-Methods", ascii "GET, POST, OPTIONS"),
       (ascii "Access-Control-Allow-Headers", ascii "Content-Type, Authorization")] ∧
    Header.Get (handleVersioned demoRoot oneFileWorld
      (demoGet (ascii "abc") (ascii "x.bin"))).sentHeader (ascii "Content-Disposition") = none ∧
    Header.Get (handleVersioned demoRoot oneFileWorld
      (demoGet (ascii "abc") (ascii "x.bin"))).sentHeader (ascii "Content-Length") = none ∧
    Header.Get (handleVersioned demoRoot oneFileWorld
      (demoGet (ascii "abc") (ascii "x.bin"))).sentHeader (ascii "Content-Transfer-Encoding") =
        none ∧
    Header.Get (handleVersioned demoRoot oneFileWorld
      (demoGet (ascii "abc") (ascii "x.bin"))).header (ascii "Content-Disposition") =
        some (ascii "attachment; filename=x.bin") := by
  decide

/-! ## Versioned upload -/

theorem hexDigit_lower : ∀ n, n < 16 → isLowerHex (hextable.getD n 0) = true := by decide

theorem EncodeToString_length (src : List Byte) :
    (EncodeToString src).length = 2 * src.length := by
  induction src with
  | nil => rfl
  | cons v src ih =>
    simp only [EncodeToString, List.flatMap_cons, List.length_append, List.length_cons,
      List.length_nil] at ih ⊢
    omega

theorem EncodeToString_lower (src : List Byte) :
    ∀ b ∈ EncodeToString src, isLowerHex b = true := by
  intro b hb
  simp only [EncodeToString, List.mem_flatMap, List.mem_cons, List.mem_singleton,
    List.not_mem_nil, or_false] at hb
  obtain ⟨v, -, h | h⟩ := hb
  · rw [h]
    have := UInt8.toNat_lt v
    exact hexDigit_lower _ (by omega)
  · rw [h]
    exact hexDigit_lower _ (Nat.mod_lt _ (by decide))

theorem on_ne : ascii "on" ≠ [] := by decide

theorem uploadDone_status (env : Env) (finalLink ffName : GoString) :
    (uploadDone env (setCors ResponseWriter.fresh) finalLink ffName).status = 200 := rfl

theorem uploadDone_body (env : Env) (finalLink ffName : GoString) :
    (uploadDone env (setCors ResponseWriter.fresh) finalLink ffName).body =
      env.Sprintf env.UploadReloadWebPage (anchor finalLink ffName) := by
  simp [uploadDone, ResponseWriter.Write, ResponseWriter.WriteHeader, ResponseWriter.SetHeader,
    setCors, ResponseWriter.fresh]

/-- A versioned upload that is answered 200: nothing failed, and the store
and the response are these. -/
theorem handleUpload_versioned_ok (env : Env) (ROOTDIR : GoString) (world : World)
    (r : Request) (name : GoString) (P : List Byte)
    (hm : r.Method = ascii "POST") (hf : r.File = some (name, P))
    (hv : r.FormValue (ascii "versioned") = ascii "on")
    (hok : (handleUpload env ROOTDIR world r).2.status = 200) :
    handleUpload env ROOTDIR world r =
      ({ world with
          files := Function.update world.files
            (Clean (ROOTDIR ++ ascii "/files/versioned/" ++ EncodeToString (env.Sum256 P)))
            (some P) },
        uploadDone env (setCors ResponseWriter.fresh)
          (versionedLink (EncodeToString (env.Sum256 P))
            (sanitize (if r.FormValue (ascii "fileName") = [] then name
              else r.FormValue (ascii "fileName"))))
          (EncodeToString (env.Sum256 P))) := by
  by_cases hk : r.FormValue (ascii "apikey") = []
  · rw [handleUpload_post_no_key env ROOTDIR world r hm _ hf hk] at hok
    simp [StatusBadRequest] at hok
  cases hc : checkApiKey env.API_KEYS (r.FormValue (ascii "apikey")) with
  | false =>
    rw [handleUpload_post_bad_key env ROOTDIR world r hm _ hf hk hc] at hok
    simp [StatusUnauthorized] at hok
  | true =>
    cases hr : world.readFault with
    | some k =>
      simp [-List.append_assoc, handleUpload, hm, hf, hv, hk, hc, hr, post_ne_options, post_ne_get, on_ne, ioCopy,
        StatusInternalServerError] at hok
    | none =>
      cases hcr : world.createErr
          (Clean (ROOTDIR ++ ascii "/files/versioned/" ++ EncodeToString (env.Sum256 P))) with
      | true =>
        simp [-List.append_assoc, handleUpload, hm, hf, hv, hk, hc, hr, hcr, post_ne_options, post_ne_get, on_ne,
          ioCopy, World.Create, StatusInternalServerError] at hok
      | false =>
        cases hw : world.writeFault with
        | some k =>
          simp [-List.append_assoc, handleUpload, hm, hf, hv, hk, hc, hr, hcr, hw, post_ne_options, post_ne_get,
            on_ne, ioCopy, World.Create, StatusInternalServerError] at hok
        | none =>
          simp [-List.append_assoc, handleUpload, hm, hf, hv, hk, hc, hr, hcr, hw, post_ne_options, post_ne_get,
            on_ne, ioCopy, World.Create, World.WriteFile]

theorem hexDigit_value : ∀ n, n < 16 → hexDigitValue (hextable.getD n 0) = some n := by decide

/-- The hex encoding denotes the bytes encoded: decoding it as a lowercase
hexadecimal string gives them back. -/
theorem hexDecode_EncodeToString (src : List Byte) :
    hexDecode (EncodeToString src) = some (src.map UInt8.toNat) := by
  induction src with
  | nil => rfl
  | cons v src ih =>
    have h1 : v.toNat / 16 < 16 := by
      have := UInt8.toNat_lt v
      omega
    have h2 : v.toNat % 16 < 16 := Nat.mod_lt _ (by decide)
    have e : EncodeToString (v :: src) =
        hextable.getD (v.toNat / 16) 0 :: hextable.getD (v.toNat % 16) 0 ::
          EncodeToString src := by
      simp [EncodeToString]
    rw [e, hexDecode, hexDigit_value _ h1, hexDigit_value _ h2, ih]
    simp only [List.map_cons, Option.some.injEq, List.cons.injEq, and_true]
    omega

theorem replaced_eq_map (F : GoString) :
    replaced F = F.map (fun b => if b = 32 ∨ b = 47 ∨ b = 92 then 95 else b) := by
  simp only [replaced, ReplaceAll, List.map_map]
  apply List.map_congr_left
  intro b _
  simp only [Function.comp]
  by_cases e1 : b = 32
  · subst e1; decide
  by_cases e2 : b = 47
  · subst e2; decide
  by_cases e3 : b = 92
  · subst e3; decide
  have e1' : ¬ b = chSpace := e1
  have e2' : ¬ b = chSlash := e2
  have e3' : ¬ b = chBackslash := e3
  simp [e1, e2, e3, e1', e2', e3']

/-- The sanitizing of `handleUpload` is the sanitizing the specification
describes. -/
theorem sanitize_eq_spec (F : GoString) : sanitize F = specSanitize F := by
  rw [sanitize_eq, replaced_eq_map]
  rfl

theorem uploadDone_page (env : Env) (hashString ffName : GoString) :
    (uploadDone env (setCors ResponseWriter.fresh) (versionedLink hashString ffName)
      hashString).body =
      env.Sprintf env.UploadReloadWebPage
        (ascii "<a href='" ++ (ascii "/files/versioned/" ++ hashString ++ ascii "/" ++ ffName) ++
          ascii "'>" ++ hashString ++ ascii "</a>") := by
  rw [uploadDone_body]
  rfl

/-- Claim C7. Round trip of versioned storage: when a POST with
`versioned = "on"` and payload `P` is answered 200, the name `h` of the file
is the lowercase hexadecimal writing of the 32-byte digest of `P`: 64
characters of `0`..`9`, `a`..`f` that denote the bytes of the digest; the
store holds `P` at `ROOTDIR/files/versioned/h` and is otherwise unchanged; the
page returned is the template filled with the anchor whose target is the link
`/files/versioned/` + `h` + `/` + the sanitized name (every space, `/` and `\`
of the name replaced by `_`, then cleaned) and whose text is `h`; and every
later retrieval with hash segment `h`, under any name, is answered 200 with
body `P`. -/
theorem versioned_round_trip (env : Env) (ROOTDIR : GoString) (world : World)
    (r : Request) (name : GoString) (P : List Byte)
    (hm : r.Method = ascii "POST") (hf : r.File = some (name, P))
    (hv : r.FormValue (ascii "versioned") = ascii "on")
    (hok : (handleUpload env ROOTDIR world r).2.status = 200) :
    (EncodeToString (env.Sum256 P)).length = 64 ∧
    (∀ b ∈ EncodeToString (env.Sum256 P), isLowerHex b = true) ∧
    hexDecode (EncodeToString (env.Sum256 P)) = some ((env.Sum256 P).map UInt8.toNat) ∧
    (handleUpload env ROOTDIR world r).1.files
      (Clean (ROOTDIR ++ ascii "/files/versioned/" ++ EncodeToString (env.Sum256 P))) = some P ∧
    (∀ p, p ≠ Clean (ROOTDIR ++ ascii "/files/versioned/" ++ EncodeToString (env.Sum256 P)) →
      (handleUpload env ROOTDIR world r).1.files p = world.files p) ∧
    (handleUpload env ROOTDIR world r).2.body =
      env.Sprintf env.UploadReloadWebPage
        (ascii "<a href='" ++
          (ascii "/files/versioned/" ++ EncodeToString (env.Sum256 P) ++ ascii "/" ++
            sanitize (if r.FormValue (ascii "fileName") = [] then name
              else r.FormValue (ascii "fileName"))) ++
          ascii "'>" ++ EncodeToString (env.Sum256 P) ++ ascii "</a>") ∧
    sanitize (if r.FormValue (ascii "fileName") = [] then name
        else r.FormValue (ascii "fileName")) =
      specSanitize (if r.FormValue (ascii "fileName") = [] then name
        else r.FormValue (ascii "fileName")) ∧
    (∀ (r2 : Request) (N : GoString), r2.Method = ascii "GET" →
      r2.Var (ascii "hash") = some (EncodeToString (env.Sum256 P)) →
      r2.Var (ascii "fileName") = some N →
      (handleVersioned ROOTDIR (handleUpload env ROOTDIR world r).1 r2).status = 200 ∧
      (handleVersioned ROOTDIR (handleUpload env ROOTDIR world r).1 r2).body = P) := by
  rw [handleUpload_versioned_ok env ROOTDIR world r name P hm hf hv hok]
  refine ⟨?_, EncodeToString_lower _, hexDecode_EncodeToString _, ?_, ?_, ?_,
    sanitize_eq_spec _, ?_⟩
  · rw [EncodeToString_length, env.Sum256_size]
  · simp
  · intro p hp
    simp [Function.update_noteq hp]
  · exact uploadDone_page env _ _
  · intro r2 N hm2 hh hn
    have hm3 : r2.Method ≠ ascii "OPTIONS" := by
      rw [hm2]
      exact get_ne_options
    have hread : World.ReadFile
        { world with
          files := Function.update world.files
            (Clean (ROOTDIR ++ ascii "/files/versioned/" ++ EncodeToString (env.Sum256 P)))
            (some P) }
        (versionedPath ROOTDIR (EncodeToString (env.Sum256 P))) = some P := by
      simp only [World.ReadFile, versionedPath]
      rw [Clean_idem]
      exact Function.update_same _ _ _
    have := handleVersioned_found ROOTDIR _ r2 _ N P hm3 hh hn hread
    exact ⟨this.1, this.2.1⟩

theorem versioned_round_trip_witness :
    (demoUpload (ascii "a b.txt") (ascii "k1")).Method = ascii "POST" ∧
    (demoUpload (ascii "a b.txt") (ascii "k1")).FormValue (ascii "versioned") = ascii "on" ∧
    (handleUpload demoEnv demoRoot emptyWorld (demoUpload (ascii "a b.txt") (ascii "k1"))).2.status
      = 200 ∧
    (handleUpload demoEnv demoRoot emptyWorld (demoUpload (ascii "a b.txt") (ascii "k1"))).1.files
      (Clean (demoRoot ++ ascii "/files/versioned/" ++
        EncodeToString (demoEnv.Sum256 [1, 2, 3]))) = some [1, 2, 3] :=
  ⟨by decide, by decide, by decide,
    (versioned_round_trip demoEnv demoRoot emptyWorld (demoUpload (ascii "a b.txt") (ascii "k1"))
      (ascii "upload.bin") [1, 2, 3] (by decide) rfl (by decide) (by decide)).2.2.2.1⟩

/-! ## Two versioned uploads of one payload -/

theorem versionedLink_inj (h a b : GoString) :
    versionedLink h a = versionedLink h b ↔ a = b := by
  simp [versionedLink]

/-- Claim C8, as it fails: the different names `a b` and `a_b` sanitize to
the same name, and two versioned uploads of the same bytes under these two
names, the second on the store the first one left, are both answered 200
with the same page: the same link. -/
theorem same_link_for_different_names :
    ascii "a b" ≠ ascii "a_b" ∧
    sanitize (ascii "a b") = sanitize (ascii "a_b") ∧
    (handleUpload demoEnv demoRoot emptyWorld (demoUpload (ascii "a b") (ascii "k1"))).2.status
      = 200 ∧
    (handleUpload demoEnv demoRoot
      (handleUpload demoEnv demoRoot emptyWorld (demoUpload (ascii "a b") (ascii "k1"))).1
      (demoUpload (ascii "a_b") (ascii "k1"))).2.status = 200 ∧
    (handleUpload demoEnv demoRoot
      (handleUpload demoEnv demoRoot emptyWorld (demoUpload (ascii "a b") (ascii "k1"))).1
      (demoUpload (ascii "a_b") (ascii "k1"))).2.body =
      (handleUpload demoEnv demoRoot emptyWorld (demoUpload (ascii "a b") (ascii "k1"))).2.body ∧
    versionedLink (EncodeToString (demoEnv.Sum256 [1, 2, 3])) (sanitize (ascii "a b")) =
      versionedLink (EncodeToString (demoEnv.Sum256 [1, 2, 3])) (sanitize (ascii "a_b")) := by
  exact ⟨by decide, by decide, by decide, by decide, rfl, by decide⟩

/-- Claim C8, amended. Two versioned uploads of the same payload `P` that
are answered 200 store `P` in the same file, named by the hex digest of `P`,
whatever the two names; each page carries the anchor whose target is the link
`/files/versioned/` + hash + `/` + sanitized name; and the two links are equal
exactly when the two sanitized names are equal. -/
theorem same_payload_same_file (env : Env) (ROOTDIR : GoString) (world1 world2 : World)
    (r1 r2 : Request) (n1 n2 : GoString) (P : List Byte)
    (hm1 : r1.Method = ascii "POST") (hf1 : r1.File = some (n1, P))
    (hv1 : r1.FormValue (ascii "versioned") = ascii "on")
    (hok1 : (handleUpload env ROOTDIR world1 r1).2.status = 200)
    (hm2 : r2.Method = ascii "POST") (hf2 : r2.File = some (n2, P))
    (hv2 : r2.FormValue (ascii "versioned") = ascii "on")
    (hok2 : (handleUpload env ROOTDIR world2 r2).2.status = 200) :
    (handleUpload env ROOTDIR world1 r1).1.files
      (Clean (ROOTDIR ++ ascii "/files/versioned/" ++ EncodeToString (env.Sum256 P))) = some P ∧
    (handleUpload env ROOTDIR world2 r2).1.files
      (Clean (ROOTDIR ++ ascii "/files/versioned/" ++ EncodeToString (env.Sum256 P))) = some P ∧
    (handleUpload env ROOTDIR world1 r1).2.body =
      env.Sprintf env.UploadReloadWebPage
        (ascii "<a href='" ++
          (ascii "/files/versioned/" ++ EncodeToString (env.Sum256 P) ++ ascii "/" ++
            sanitize (if r1.FormValue (ascii "fileName") = [] then n1
              else r1.FormValue (ascii "fileName"))) ++
          ascii "'>" ++ EncodeToString (env.Sum256 P) ++ ascii "</a>") ∧
    (handleUpload env ROOTDIR world2 r2).2.body =
      env.Sprintf env.UploadReloadWebPage
        (ascii "<a href='" ++
          (ascii "/files/versioned/" ++ EncodeToString (env.Sum256 P) ++ ascii "/" ++
            sanitize (if r2.FormValue (ascii "fileName") = [] then n2
              else r2.FormValue (ascii "fileName"))) ++
          ascii "'>" ++ EncodeToString (env.Sum256 P) ++ ascii "</a>") ∧
    (ascii "/files/versioned/" ++ EncodeToString (env.Sum256 P) ++ ascii "/" ++
        sanitize (if r1.FormValue (ascii "fileName") = [] then n1
          else r1.FormValue (ascii "fileName")) =
      ascii "/files/versioned/" ++ EncodeToString (env.Sum256 P) ++ ascii "/" ++
        sanitize (if r2.FormValue (ascii "fileName") = [] then n2
          else r2.FormValue (ascii "fileName")) ↔
      sanitize (if r1.FormValue (ascii "fileName") = [] then n1
          else r1.FormValue (ascii "fileName")) =
        sanitize (if r2.FormValue (ascii "fileName") = [] then n2
          else r2.FormValue (ascii "fileName"))) := by
  rw [handleUpload_versioned_ok env ROOTDIR world1 r1 n1 P hm1 hf1 hv1 hok1,
    handleUpload_versioned_ok env ROOTDIR world2 r2 n2 P hm2 hf2 hv2 hok2]
  refine ⟨?_, ?_, uploadDone_page _ _ _, uploadDone_page _ _ _, versionedLink_inj _ _ _⟩
  · exact Function.update_same _ _ _
  · exact Function.update_same _ _ _

theorem same_payload_same_file_witness :
    (demoUpload (ascii "a.txt") (ascii "k1")).Method = ascii "POST" ∧
    (demoUpload (ascii "a.txt") (ascii "k1")).FormValue (ascii "versioned") = ascii "on" ∧
    (handleUpload demoEnv demoRoot emptyWorld (demoUpload (ascii "a.txt") (ascii "k1"))).2.status
      = 200 ∧
    (demoUpload (ascii "b.txt") (ascii "k2")).Method = ascii "POST" ∧
    (demoUpload (ascii "b.txt") (ascii "k2")).FormValue (ascii "versioned") = ascii "on" ∧
    (handleUpload demoEnv demoRoot emptyWorld (demoUpload (ascii "b.txt") (ascii "k2"))).2.status
      = 200 ∧
    (handleUpload demoEnv demoRoot emptyWorld (demoUpload (ascii "b.txt") (ascii "k2"))).1.files
      (Clean (demoRoot ++ ascii "/files/versioned/" ++
        EncodeToString (demoEnv.Sum256 [1, 2, 3]))) = some [1, 2, 3] :=
  ⟨by decide, by decide, by decide, by decide, by decide, by decide,
    (same_payload_same_file demoEnv demoRoot emptyWorld emptyWorld
      (demoUpload (ascii "a.txt") (ascii "k1")) (demoUpload (ascii "b.txt") (ascii "k2"))
      (ascii "upload.bin") (ascii "upload.bin") [1, 2, 3]
      (by decide) rfl (by decide) (by decide) (by decide) rfl (by decide) (by decide)).2.1⟩

/-! ## Instances of the claims on the POST path -/

theorem unauthorized_upload_writes_nothing_witness :
    (demoUpload (ascii "a.txt") (ascii "k3")).Method = ascii "POST" ∧
    ((demoUpload (ascii "a.txt") (ascii "k3")).FormValue (ascii "apikey") = [] ∨
      (demoUpload (ascii "a.txt") (ascii "k3")).FormValue (ascii "apikey") ∉
        Split chSemi demoEnv.API_KEYS) ∧
    ((handleUpload demoEnv demoRoot emptyWorld
        (demoUpload (ascii "a.txt") (ascii "k3"))).2.status = 400 ∨
      (handleUpload demoEnv demoRoot emptyWorld
        (demoUpload (ascii "a.txt") (ascii "k3"))).2.status = 401) :=
  ⟨by decide, by decide,
    (unauthorized_upload_writes_nothing demoEnv demoRoot emptyWorld
      (demoUpload (ascii "a.txt") (ascii "k3")) (by decide) (by decide)).2⟩

theorem upload_post_error_statuses_witness :
    (demoUpload (ascii "a.txt") (ascii "k3")).Method = ascii "POST" ∧
    ((demoUpload (ascii "a.txt") (ascii "k3")).File ≠ none →
      (demoUpload (ascii "a.txt") (ascii "k3")).FormValue (ascii "apikey") ≠ [] →
      (demoUpload (ascii "a.txt") (ascii "k3")).FormValue (ascii "apikey") ∉
        Split chSemi demoEnv.API_KEYS →
      (handleUpload demoEnv demoRoot emptyWorld
        (demoUpload (ascii "a.txt") (ascii "k3"))).2.status = 401 ∧
      (handleUpload demoEnv demoRoot emptyWorld
        (demoUpload (ascii "a.txt") (ascii "k3"))).2.body = []) :=
  ⟨by decide,
    (upload_post_error_statuses demoEnv demoRoot emptyWorld
      (demoUpload (ascii "a.txt") (ascii "k3")) (by decide)).2.2⟩

theorem empty_key_rejected_by_handler_witness :
    (demoUpload (ascii "a.txt") []).Method = ascii "POST" ∧
    (demoUpload (ascii "a.txt") []).FormValue (ascii "apikey") = [] ∧
    (handleUpload demoEnv demoRoot emptyWorld (demoUpload (ascii "a.txt") [])).2.status = 400 :=
  ⟨by decide, by decide,
    (empty_key_rejected_by_handler demoEnv demoRoot emptyWorld (demoUpload (ascii "a.txt") [])
      (by decide) (by decide)).2.2.1⟩

end RegCdn
